import Mathlib

/-!
# CLRUCache (src/cache/src/lru_cache.h)

A shallow embedding of the class template `CLRUCache<key_type, value_type>` and
proofs about its public operations.

Modelling conventions.

* `m_values` (a `std::list` of key/record pairs) is a Lean list of nodes, front
  first.  Every node carries the identity of its list cell (`addr`); a list
  iterator is the identity of the cell it points at, `none` standing for
  `m_values.end()`.
* `m_indexs` (a `std::map` from key to list iterator) is an association list
  kept in the iteration order of the map (ascending keys); an index iterator is
  the key of the map cell it points at, `none` standing for `m_indexs.end()`.
* The `int` fields are integers.  `m_cache_count` is shown to stay between 0 and `m_limit`.
  The increment `++m_miss_count` is the one of a 32-bit two's-complement `int`: past
  `INT_MAX` it comes out at `INT_MIN`, as in the compiled program.
* An operation returns `none` where the containers give the C++ no defined
  behaviour: stepping back from `end()` of an empty list, or going through an
  iterator that designates no live cell; the constructor returns `none` when
  one of its assertions fails.
* An output parameter `value_type* p` is a Boolean (`true` for a non-null
  pointer) plus a returned `Option` holding what was stored through it.
-/

set_option linter.unusedSectionVars false

namespace LRU

/-- The stored record `LRUData`: the caller's value plus the deletion mark. -/
structure LRUData (V : Type) where
  value : V
  _del : Bool
deriving DecidableEq

/-- One cell of `m_values`: its identity and the pair `(key, LRUData)` it holds. -/
structure Node (K V : Type) where
  addr : Nat
  key : K
  data : LRUData V
deriving DecidableEq

/-- The data members of `CLRUCache`. -/
structure CLRUCache (K V : Type) where
  m_values : List (Node K V)
  m_indexs : List (K × Nat)
  m_limit : Int
  m_clean_size : Int
  m_cache_count : Int
  m_hit_count : Int
  m_miss_count : Int
  m_expire_count : Int
deriving DecidableEq

section Model

variable {K V : Type} [LinearOrder K]

/-! ## Container primitives -/

/-- The cell an iterator designates, if it is live. -/
def valuesDeref (vals : List (Node K V)) (it : Nat) : Option (Node K V) :=
  vals.find? (fun n => decide (n.addr = it))

/-- The call `m_values.erase(pos)`. -/
def valuesErase (vals : List (Node K V)) (it : Nat) : List (Node K V) :=
  vals.filter (fun n => decide (n.addr ≠ it))

/-- The call `m_values.splice(m_values.begin(), m_values, pos)` for the cell `n` at `pos`. -/
def valuesSplice (vals : List (Node K V)) (n : Node K V) : List (Node K V) :=
  n :: valuesErase vals n.addr

/-- The identity given to a newly allocated list cell: one not used by a live cell. -/
def freshAddr (vals : List (Node K V)) : Nat :=
  (vals.map Node.addr).foldr max 0 + 1

/-- The call `m_values.begin()`. -/
def valuesBegin (vals : List (Node K V)) : Option Nat :=
  vals.head?.map Node.addr

/-- The call `m_indexs.find(key)`; `none` is `m_indexs.end()`. -/
def indexFind (idx : List (K × Nat)) (key : K) : Option Nat :=
  (idx.find? (fun e => decide (e.1 = key))).map Prod.snd

/-- The calls `m_indexs.erase(key)` and `m_indexs.erase(pos)`. -/
def indexErase (idx : List (K × Nat)) (key : K) : List (K × Nat) :=
  idx.filter (fun e => decide (e.1 ≠ key))

/-- The call `m_indexs.emplace(key, it)`: ordered insertion, nothing when the key is there. -/
def indexEmplace : List (K × Nat) → K → Nat → List (K × Nat)
  | [], key, it => [(key, it)]
  | e :: rest, key, it =>
    if key < e.1 then (key, it) :: e :: rest
    else if key = e.1 then e :: rest
    else e :: indexEmplace rest key it

/-- Overwrite the value part of the record in cell `it` and clear its mark. -/
def valuesAssign (vals : List (Node K V)) (it : Nat) (value : V) : List (Node K V) :=
  vals.map (fun n => if n.addr = it then { n with data := ⟨value, false⟩ } else n)

/-- Set the mark of the record in cell `it`. -/
def valuesMark (vals : List (Node K V)) (it : Nat) : List (Node K V) :=
  vals.map (fun n => if n.addr = it then { n with data := { n.data with _del := true } } else n)

/-- The result of `++x` on an `int` holding `x`: 32 bits, two's complement. -/
def intIncrement (x : Int) : Int :=
  (x + 1 + 2147483648) % 4294967296 - 2147483648

/-! ## Operations -/

/-- The constructor; `expire_time` is accepted and not used. -/
def CLRUCache.new (limit clean_size : Int) (_expire_time : Int) : Option (CLRUCache K V) :=
  if 0 < limit ∧ 0 < clean_size ∧ clean_size ≤ limit then
    some ⟨[], [], limit, clean_size, 0, 0, 0, 0⟩
  else none

/-- `RemovePosValue(pos, valueptr)`. -/
def RemovePosValue (c : CLRUCache K V) (pos : Option Nat) (valueptr : Bool) :
    Option (Bool × Option V × CLRUCache K V) :=
  match pos with
  | none => some (false, none, c)
  | some it =>
    match valuesDeref c.m_values it with
    | none => none
    | some n =>
      some (true, if valueptr then some n.data.value else none,
        { c with
          m_indexs := indexErase c.m_indexs n.key
          m_values := valuesErase c.m_values it
          m_cache_count := c.m_cache_count - 1 })

/-- `RemovePosIndex(pos, valueptr)`. -/
def RemovePosIndex (c : CLRUCache K V) (pos : Option K) (valueptr : Bool) :
    Option (Bool × Option V × CLRUCache K V) :=
  match pos with
  | none => some (false, none, c)
  | some key =>
    match indexFind c.m_indexs key with
    | none => none
    | some v_pos =>
      match valuesDeref c.m_values v_pos with
      | none => none
      | some n =>
        some (true, if valueptr then some n.data.value else none,
          { c with
            m_indexs := indexErase c.m_indexs key
            m_values := valuesErase c.m_values v_pos
            m_cache_count := c.m_cache_count - 1 })

/-- `RemoveFirst(valueptr)`. -/
def RemoveFirst (c : CLRUCache K V) (valueptr : Bool) :
    Option (Bool × Option V × CLRUCache K V) :=
  RemovePosValue c (valuesBegin c.m_values) valueptr

/-- `RemoveLast(valueptr)`; `--m_values.end()` is undefined on an empty list. -/
def RemoveLast (c : CLRUCache K V) (valueptr : Bool) :
    Option (Bool × Option V × CLRUCache K V) :=
  match c.m_values.getLast? with
  | none => none
  | some n => RemovePosValue c (some n.addr) valueptr

/-- `Clear()`. -/
def Clear (c : CLRUCache K V) : CLRUCache K V :=
  { c with
    m_indexs := []
    m_values := []
    m_cache_count := 0
    m_hit_count := 0
    m_miss_count := 0
    m_expire_count := 0 }

/-- The loop `while (num--) RemoveLast();`. -/
def removeLastLoop : Nat → CLRUCache K V → Option (CLRUCache K V)
  | 0, c => some c
  | num + 1, c =>
    match RemoveLast c false with
    | none => none
    | some r => removeLastLoop num r.2.2

/-- `CleanByLRU()`.  A negative `m_clean_size` would make the loop run off the list. -/
def CleanByLRU (c : CLRUCache K V) : Option (CLRUCache K V) :=
  if c.m_cache_count < c.m_clean_size then some c
  else if c.m_clean_size < 0 then none
  else removeLastLoop c.m_clean_size.toNat c

/-- The first loop of `CleanNeedDel()`: the index iterators whose record is marked. -/
def collectDel (vals : List (Node K V)) : List (K × Nat) → Option (List K)
  | [] => some []
  | e :: rest =>
    match valuesDeref vals e.2 with
    | none => none
    | some n =>
      match collectDel vals rest with
      | none => none
      | some del_elements => some (if n.data._del then e.1 :: del_elements else del_elements)

/-- The second loop of `CleanNeedDel()`: `RemovePosIndex(itr)` for each collected iterator. -/
def removeDelLoop : List K → CLRUCache K V → Option (CLRUCache K V)
  | [], c => some c
  | itr :: rest, c =>
    match RemovePosIndex c (some itr) false with
    | none => none
    | some r => removeDelLoop rest r.2.2

/-- `CleanNeedDel()`. -/
def CleanNeedDel (c : CLRUCache K V) : Option (CLRUCache K V) :=
  match collectDel c.m_values c.m_indexs with
  | none => none
  | some [] => some c
  | some (itr :: rest) => removeDelLoop (itr :: rest) c

/-- `CleanCapacity()`. -/
def CleanCapacity (c : CLRUCache K V) : Option (CLRUCache K V) :=
  match CleanNeedDel c with
  | none => none
  | some c1 => CleanByLRU c1

/-- `Find(key)`: the value the returned pointer designates (`none` for `nullptr`). -/
def Find (c : CLRUCache K V) (key : K) : Option (Option V × CLRUCache K V) :=
  match indexFind c.m_indexs key with
  | none => some (none, { c with m_miss_count := intIncrement c.m_miss_count })
  | some it =>
    match valuesDeref c.m_values it with
    | none => none
    | some n => some (some n.data.value, { c with m_values := valuesSplice c.m_values n })

/-- `Peek(key)`. -/
def Peek (c : CLRUCache K V) (key : K) : Option (Option V × CLRUCache K V) :=
  match indexFind c.m_indexs key with
  | none => some (none, c)
  | some it =>
    match valuesDeref c.m_values it with
    | none => none
    | some n => some (some n.data.value, c)

/-- `Front()`. -/
def Front (c : CLRUCache K V) : Option (Option V × CLRUCache K V) :=
  if c.m_cache_count ≤ 0 then some (none, c)
  else
    match c.m_values.head? with
    | none => none
    | some n => some (some n.data.value, c)

/-- The capacity step of `Add`: `removed ? (void) RemoveLast(removed) : CleanCapacity()`. -/
def makeRoom (c : CLRUCache K V) (removed : Bool) : Option (Option V × CLRUCache K V) :=
  if c.m_cache_count ≥ c.m_limit then
    if removed then
      match RemoveLast c true with
      | none => none
      | some r => some (r.2.1, r.2.2)
    else
      match CleanCapacity c with
      | none => none
      | some c1 => some (none, c1)
  else some (none, c)

/-- The insertion at the end of the new-key branch of `Add`: `emplace_front` of the pair with a
cleared mark, `emplace` of its iterator into the index, `++m_cache_count`. -/
def insertFront (c : CLRUCache K V) (key : K) (value : V) : CLRUCache K V :=
  { c with
    m_values := ⟨freshAddr c.m_values, key, ⟨value, false⟩⟩ :: c.m_values
    m_indexs := indexEmplace c.m_indexs key (freshAddr c.m_values)
    m_cache_count := c.m_cache_count + 1 }

/-- `Add(key, value, removed)`; the first component is what was stored through `removed`. -/
def Add (c : CLRUCache K V) (key : K) (value : V) (removed : Bool) :
    Option (Option V × CLRUCache K V) :=
  match indexFind c.m_indexs key with
  | none =>
    match makeRoom c removed with
    | none => none
    | some (out, c1) => some (out, insertFront c1 key value)
  | some it =>
    match valuesDeref c.m_values it with
    | none => none
    | some _ => some (none, { c with m_values := valuesAssign c.m_values it value })

/-- `AddVec(kv_vec)`. -/
def AddVec : CLRUCache K V → List (K × V) → Option (CLRUCache K V)
  | c, [] => some c
  | c, kv :: rest =>
    match Add c kv.1 kv.2 false with
    | none => none
    | some r => AddVec r.2 rest

/-- `Remove(key, valueptr)`. -/
def Remove (c : CLRUCache K V) (key : K) (valueptr : Bool) :
    Option (Option V × CLRUCache K V) :=
  match indexFind c.m_indexs key with
  | none => some (none, c)
  | some _ =>
    match RemovePosIndex c (some key) valueptr with
    | none => none
    | some r => some (r.2.1, r.2.2)

/-- `MarkDelete(key)`. -/
def MarkDelete (c : CLRUCache K V) (key : K) : Option (CLRUCache K V) :=
  match indexFind c.m_indexs key with
  | none => some c
  | some it =>
    match valuesDeref c.m_values it with
    | none => none
    | some _ => some { c with m_values := valuesMark c.m_values it }

/-- `SetLimit(limit)`. -/
def SetLimit (c : CLRUCache K V) (limit : Int) : CLRUCache K V :=
  { c with m_limit := if limit ≤ c.m_limit then c.m_limit else limit }

/-- `Size()`. -/
def Size (c : CLRUCache K V) : Int := c.m_cache_count

/-- `GetLimit()`. -/
def GetLimit (c : CLRUCache K V) : Int := c.m_limit

/-- `GetCleanSize()`. -/
def GetCleanSize (c : CLRUCache K V) : Int := c.m_clean_size

/-- `Hit()`. -/
def Hit (c : CLRUCache K V) : Int := c.m_hit_count

/-- `Miss()`. -/
def Miss (c : CLRUCache K V) : Int := c.m_miss_count

/-- `ExpireCount()`. -/
def ExpireCount (c : CLRUCache K V) : Int := c.m_expire_count

/-- The call `container.insert(pair)` on an `ElemMap`, a `std::map<key_type, value_type>`:
ordered insertion, nothing when the key is there. -/
def elemInsert : List (K × V) → K → V → List (K × V)
  | [], key, value => [(key, value)]
  | e :: rest, key, value =>
    if key < e.1 then (key, value) :: e :: rest
    else if key = e.1 then e :: rest
    else e :: elemInsert rest key value

/-- Modelled from the spec: the body of `Rand(container, count)` is missing from the source,
which has only its declaration, the type `ElemMap` and the note that `count` elements are
drawn into `container`, or as many as there are.  After the spec (Sample): up to `count`
cells are drawn, none twice, into the output mapping, fewer when the cache holds fewer.  The
order in which cells are drawn is implementation-defined; it is the parameter `order`, which
arranges the cells of the sequence. -/
def Rand (c : CLRUCache K V) (order : List (Node K V) → List (Node K V))
    (container : List (K × V)) (count : Int) : List (K × V) :=
  ((order c.m_values).take count.toNat).foldl
    (fun m n => elemInsert m n.key n.data.value) container

/-! ## Reachable states -/

/-- A call of one of the public operations. -/
inductive Call (K V : Type) where
  | add (key : K) (value : V) (removed : Bool)
  | addVec (kv_vec : List (K × V))
  | remove (key : K) (valueptr : Bool)
  | removeFirst (valueptr : Bool)
  | removeLast (valueptr : Bool)
  | clear
  | cleanCapacity
  | cleanByLRU
  | cleanNeedDel
  | find (key : K)
  | peek (key : K)
  | front
  | markDelete (key : K)
  | setLimit (limit : Int)

/-- The state a call leaves behind, when the call has defined behaviour. -/
def Call.run (c : CLRUCache K V) : Call K V → Option (CLRUCache K V)
  | .add key value removed => (Add c key value removed).map Prod.snd
  | .addVec kv_vec => AddVec c kv_vec
  | .remove key valueptr => (Remove c key valueptr).map Prod.snd
  | .removeFirst valueptr => (RemoveFirst c valueptr).map (fun r => r.2.2)
  | .removeLast valueptr => (RemoveLast c valueptr).map (fun r => r.2.2)
  | .clear => some (Clear c)
  | .cleanCapacity => CleanCapacity c
  | .cleanByLRU => CleanByLRU c
  | .cleanNeedDel => CleanNeedDel c
  | .find key => (Find c key).map Prod.snd
  | .peek key => (Peek c key).map Prod.snd
  | .front => (Front c).map Prod.snd
  | .markDelete key => MarkDelete c key
  | .setLimit limit => some (SetLimit c limit)

/-- The states a validly constructed cache can be in after finitely many public calls. -/
inductive Reachable : CLRUCache K V → Prop where
  | construct (limit clean_size expire_time : Int) (c : CLRUCache K V)
      (h : CLRUCache.new limit clean_size expire_time = some c) : Reachable c
  | call (c c1 : CLRUCache K V) (op : Call K V)
      (hc : Reachable c) (h : Call.run c op = some c1) : Reachable c1

/-! ## Representation invariant -/

/-- The index cell that belongs to a list cell. -/
def entryOf (n : Node K V) : K × Nat := (n.key, n.addr)

/-- The sequence and the index describe each other. -/
structure Linked (vals : List (Node K V)) (idx : List (K × Nat)) : Prop where
  addr_nodup : (vals.map Node.addr).Nodup
  key_nodup : (vals.map Node.key).Nodup
  index_perm : idx.Perm (vals.map entryOf)

/-- The representation invariant: the two containers agree and the counter counts them. -/
structure Wf (c : CLRUCache K V) : Prop where
  linked : Linked c.m_values c.m_indexs
  count_eq : c.m_cache_count = c.m_values.length

/-- The invariant of a validly constructed cache. -/
structure Inv (c : CLRUCache K V) : Prop where
  wf : Wf c
  clean_pos : 0 < c.m_clean_size
  clean_le : c.m_clean_size ≤ c.m_limit
  count_le : c.m_cache_count ≤ c.m_limit

/-- The fields no removal touches: the configuration and the statistics. -/
def Frame (c c1 : CLRUCache K V) : Prop :=
  c1.m_limit = c.m_limit ∧ c1.m_clean_size = c.m_clean_size ∧ c1.m_hit_count = c.m_hit_count ∧
    c1.m_miss_count = c.m_miss_count ∧ c1.m_expire_count = c.m_expire_count

/-- The state after the cell `n` has been taken out of both containers. -/
def eraseNode (c : CLRUCache K V) (n : Node K V) : CLRUCache K V :=
  { c with
    m_indexs := indexErase c.m_indexs n.key
    m_values := valuesErase c.m_values n.addr
    m_cache_count := c.m_cache_count - 1 }

end Model

/-! ## Concrete states -/

/-- An empty cache built with `limit = 5`, `clean_size = 2`. -/
def demoEmpty : CLRUCache Nat Nat := ⟨[], [], 5, 2, 0, 0, 0, 0⟩

/-- The cache `demoEmpty` after the keys 1 to 5 have been added in order. -/
def demoFull : CLRUCache Nat Nat :=
  ⟨[⟨5, 5, ⟨50, false⟩⟩, ⟨4, 4, ⟨40, false⟩⟩, ⟨3, 3, ⟨30, false⟩⟩, ⟨2, 2, ⟨20, false⟩⟩,
      ⟨1, 1, ⟨10, false⟩⟩],
    [(1, 1), (2, 2), (3, 3), (4, 4), (5, 5)], 5, 2, 5, 0, 0, 0⟩

/-- The cache `demoFull` after `Find(3)` and `MarkDelete(3)`: key 3 is in front and marked. -/
def demoMarked : CLRUCache Nat Nat :=
  ⟨[⟨3, 3, ⟨30, true⟩⟩, ⟨5, 5, ⟨50, false⟩⟩, ⟨4, 4, ⟨40, false⟩⟩, ⟨2, 2, ⟨20, false⟩⟩,
      ⟨1, 1, ⟨10, false⟩⟩],
    [(1, 1), (2, 2), (3, 3), (4, 4), (5, 5)], 5, 2, 5, 0, 0, 0⟩
/-- The cache `demoFull` after `MarkDelete(2)` and `MarkDelete(4)`. -/
def demoTwoMarked : CLRUCache Nat Nat :=
  ⟨[⟨5, 5, ⟨50, false⟩⟩, ⟨4, 4, ⟨40, true⟩⟩, ⟨3, 3, ⟨30, false⟩⟩, ⟨2, 2, ⟨20, true⟩⟩,
      ⟨1, 1, ⟨10, false⟩⟩],
    [(1, 1), (2, 2), (3, 3), (4, 4), (5, 5)], 5, 2, 5, 0, 0, 0⟩
/-- The empty cache `demoEmpty` after `n` calls of `Find` that missed. -/
def missState (n : Nat) : CLRUCache Nat Nat := ⟨[], [], 5, 2, 0, 0, n, 0⟩

section Lemmas

variable {K V : Type} [LinearOrder K]

/-! ## Lookup lemmas -/

theorem valuesDeref_some {vals : List (Node K V)} {it : Nat} {n : Node K V}
    (h : valuesDeref vals it = some n) : n ∈ vals ∧ n.addr = it := by
  unfold valuesDeref at h
  exact ⟨List.mem_of_find?_eq_some h, by simpa using List.find?_some h⟩

theorem valuesDeref_of_mem {vals : List (Node K V)} {n : Node K V}
    (hnd : (vals.map Node.addr).Nodup) (hn : n ∈ vals) :
    valuesDeref vals n.addr = some n := by
  induction vals with
  | nil => cases hn
  | cons m rest ih =>
    rw [List.map_cons, List.nodup_cons] at hnd
    by_cases hm : m.addr = n.addr
    · rcases List.mem_cons.mp hn with h | h
      · subst h; simp [valuesDeref]
      · exact absurd (hm ▸ List.mem_map_of_mem Node.addr h) hnd.1
    · rcases List.mem_cons.mp hn with h | h
      · exact absurd (h ▸ rfl) hm
      · have := ih hnd.2 h
        simpa [valuesDeref, hm] using this

theorem node_eq_of_addr {vals : List (Node K V)} {n m : Node K V}
    (hnd : (vals.map Node.addr).Nodup) (hn : n ∈ vals) (hm : m ∈ vals)
    (h : n.addr = m.addr) : n = m :=
  List.inj_on_of_nodup_map hnd hn hm h

theorem node_eq_of_key {vals : List (Node K V)} {n m : Node K V}
    (hnd : (vals.map Node.key).Nodup) (hn : n ∈ vals) (hm : m ∈ vals)
    (h : n.key = m.key) : n = m :=
  List.inj_on_of_nodup_map hnd hn hm h

theorem indexFind_none_iff {idx : List (K × Nat)} {key : K} :
    indexFind idx key = none ↔ key ∉ idx.map Prod.fst := by
  simp only [indexFind, Option.map_eq_none', List.find?_eq_none, List.mem_map, not_exists,
    not_and, decide_eq_true_eq]

theorem indexFind_some_mem {idx : List (K × Nat)} {key : K} {it : Nat}
    (h : indexFind idx key = some it) : (key, it) ∈ idx := by
  unfold indexFind at h
  rcases hf : idx.find? (fun e => decide (e.1 = key)) with _ | e
  · simp [hf] at h
  · rw [hf] at h
    have h1 := List.mem_of_find?_eq_some hf
    have h2 : e.1 = key := by simpa using List.find?_some hf
    have h3 : e.2 = it := by simpa using h
    rcases e with ⟨a, b⟩
    simp at h2 h3
    subst h2; subst h3; exact h1

theorem indexFind_of_mem {idx : List (K × Nat)} {key : K} {it : Nat}
    (hnd : (idx.map Prod.fst).Nodup) (h : (key, it) ∈ idx) : indexFind idx key = some it := by
  induction idx with
  | nil => cases h
  | cons e rest ih =>
    rw [List.map_cons, List.nodup_cons] at hnd
    rcases List.mem_cons.mp h with h | h
    · subst h; simp [indexFind]
    · have hne : e.1 ≠ key := by
        intro he
        exact hnd.1 (he ▸ List.mem_map_of_mem Prod.fst h)
      have := ih hnd.2 h
      simpa [indexFind, hne] using this

theorem map_fst_entryOf (vals : List (Node K V)) :
    (vals.map entryOf).map Prod.fst = vals.map Node.key := by
  simp [entryOf, List.map_map, Function.comp_def]

theorem Linked.index_keys_perm {vals : List (Node K V)} {idx : List (K × Nat)}
    (h : Linked vals idx) : (idx.map Prod.fst).Perm (vals.map Node.key) := by
  have := h.index_perm.map Prod.fst
  rwa [map_fst_entryOf] at this

theorem Linked.index_nodup {vals : List (Node K V)} {idx : List (K × Nat)}
    (h : Linked vals idx) : (idx.map Prod.fst).Nodup :=
  h.index_keys_perm.nodup_iff.mpr h.key_nodup

theorem Linked.length_eq {vals : List (Node K V)} {idx : List (K × Nat)}
    (h : Linked vals idx) : idx.length = vals.length := by
  simpa using h.index_perm.length_eq

theorem Linked.mem_index {vals : List (Node K V)} {idx : List (K × Nat)}
    (h : Linked vals idx) {key : K} {it : Nat} :
    (key, it) ∈ idx ↔ ∃ n ∈ vals, n.key = key ∧ n.addr = it := by
  rw [h.index_perm.mem_iff, List.mem_map]
  constructor
  · rintro ⟨n, hn, he⟩
    simp only [entryOf, Prod.mk.injEq] at he
    exact ⟨n, hn, he.1, he.2⟩
  · rintro ⟨n, hn, h1, h2⟩
    exact ⟨n, hn, by simp [entryOf, h1, h2]⟩

theorem Linked.find_iff {vals : List (Node K V)} {idx : List (K × Nat)}
    (h : Linked vals idx) {key : K} {it : Nat} :
    indexFind idx key = some it ↔ ∃ n ∈ vals, n.key = key ∧ n.addr = it := by
  rw [← h.mem_index]
  exact ⟨indexFind_some_mem, indexFind_of_mem h.index_nodup⟩

theorem Linked.find_of_mem {vals : List (Node K V)} {idx : List (K × Nat)}
    (h : Linked vals idx) {n : Node K V} (hn : n ∈ vals) :
    indexFind idx n.key = some n.addr :=
  h.find_iff.mpr ⟨n, hn, rfl, rfl⟩

theorem Linked.find_none_iff {vals : List (Node K V)} {idx : List (K × Nat)}
    (h : Linked vals idx) {key : K} :
    indexFind idx key = none ↔ key ∉ vals.map Node.key := by
  rw [indexFind_none_iff, h.index_keys_perm.mem_iff]

/-- What `Find`, `Peek`, `Add`, `Remove` and `MarkDelete` see for a key that is present. -/
theorem Linked.find_deref {vals : List (Node K V)} {idx : List (K × Nat)}
    (h : Linked vals idx) {key : K} {it : Nat} (hf : indexFind idx key = some it) :
    ∃ n, n ∈ vals ∧ n.key = key ∧ n.addr = it ∧ valuesDeref vals it = some n := by
  obtain ⟨n, hn, hk, ha⟩ := h.find_iff.mp hf
  exact ⟨n, hn, hk, ha, ha ▸ valuesDeref_of_mem h.addr_nodup hn⟩

/-! ## Structural lemmas -/

theorem map_addr_valuesErase_sublist (vals : List (Node K V)) (it : Nat) :
    ((valuesErase vals it).map Node.addr).Sublist (vals.map Node.addr) :=
  (List.filter_sublist vals).map Node.addr

theorem map_key_valuesErase_sublist (vals : List (Node K V)) (it : Nat) :
    ((valuesErase vals it).map Node.key).Sublist (vals.map Node.key) :=
  (List.filter_sublist vals).map Node.key

/-- Erasing by cell and erasing by key select the same cells. -/
theorem valuesErase_eq_filter_key {vals : List (Node K V)} {idx : List (K × Nat)}
    (h : Linked vals idx) {n : Node K V} (hn : n ∈ vals) :
    valuesErase vals n.addr = vals.filter (fun m => decide (m.key ≠ n.key)) := by
  unfold valuesErase
  apply List.filter_congr
  intro m hm
  have h1 : m.addr = n.addr ↔ m.key = n.key :=
    ⟨fun e => congrArg Node.key (node_eq_of_addr h.addr_nodup hm hn e),
     fun e => congrArg Node.addr (node_eq_of_key h.key_nodup hm hn e)⟩
  simp [h1]

theorem indexErase_map_entryOf (vals : List (Node K V)) (key : K) :
    indexErase (vals.map entryOf) key
      = (vals.filter (fun m => decide (m.key ≠ key))).map entryOf := by
  induction vals with
  | nil => rfl
  | cons m rest ih =>
    unfold indexErase at ih ⊢
    by_cases hk : m.key = key
    · simp [List.filter_cons, entryOf, hk] at ih ⊢
      exact ih
    · simp [List.filter_cons, entryOf, hk] at ih ⊢
      exact ih

theorem Linked.erase {vals : List (Node K V)} {idx : List (K × Nat)}
    (h : Linked vals idx) {n : Node K V} (hn : n ∈ vals) :
    Linked (valuesErase vals n.addr) (indexErase idx n.key) where
  addr_nodup := h.addr_nodup.sublist (map_addr_valuesErase_sublist vals n.addr)
  key_nodup := h.key_nodup.sublist (map_key_valuesErase_sublist vals n.addr)
  index_perm := by
    rw [valuesErase_eq_filter_key h hn, ← indexErase_map_entryOf]
    exact h.index_perm.filter _

theorem valuesErase_length {vals : List (Node K V)} {n : Node K V}
    (hnd : (vals.map Node.addr).Nodup) (hn : n ∈ vals) :
    (valuesErase vals n.addr).length + 1 = vals.length := by
  induction vals with
  | nil => cases hn
  | cons m rest ih =>
    rw [List.map_cons, List.nodup_cons] at hnd
    by_cases hm : m.addr = n.addr
    · have hrest : valuesErase rest n.addr = rest := by
        unfold valuesErase
        rw [List.filter_eq_self]
        intro x hx
        have : x.addr ≠ n.addr := fun e => hnd.1 (hm ▸ e ▸ List.mem_map_of_mem Node.addr hx)
        simpa using this
      have : valuesErase (m :: rest) n.addr = rest := by
        rw [← hrest]; simp [valuesErase, List.filter_cons, hm]
      rw [this]; simp
    · rcases List.mem_cons.mp hn with e | e
      · exact absurd (e ▸ rfl) hm
      · have := ih hnd.2 e
        have h2 : valuesErase (m :: rest) n.addr = m :: valuesErase rest n.addr := by
          simp [valuesErase, List.filter_cons, hm]
        rw [h2]; simp [this]

theorem mem_freshAddr {vals : List (Node K V)} {n : Node K V} (hn : n ∈ vals) :
    n.addr < freshAddr vals := by
  induction vals with
  | nil => cases hn
  | cons m rest ih =>
    unfold freshAddr at ih ⊢
    simp only [List.map_cons, List.foldr_cons]
    rcases List.mem_cons.mp hn with e | e
    · subst e; omega
    · have := ih e; omega

theorem freshAddr_not_mem (vals : List (Node K V)) :
    freshAddr vals ∉ vals.map Node.addr := by
  intro h
  obtain ⟨n, hn, he⟩ := List.mem_map.mp h
  have := mem_freshAddr hn
  omega

theorem indexEmplace_perm {idx : List (K × Nat)} {key : K} (it : Nat)
    (hk : key ∉ idx.map Prod.fst) : (indexEmplace idx key it).Perm ((key, it) :: idx) := by
  induction idx with
  | nil => exact List.Perm.refl _
  | cons e rest ih =>
    have hne : key ≠ e.1 := fun h => hk (by simp [h])
    have hrest : key ∉ rest.map Prod.fst := fun h => hk (by simp at h ⊢; exact Or.inr h)
    unfold indexEmplace
    by_cases hlt : key < e.1
    · simp [hlt]
    · simp only [hlt, hne, if_false]
      exact ((ih hrest).cons e).trans (List.Perm.swap _ _ _)

theorem Linked.insert {vals : List (Node K V)} {idx : List (K × Nat)}
    (h : Linked vals idx) {key : K} (hk : indexFind idx key = none) (d : LRUData V) :
    Linked (⟨freshAddr vals, key, d⟩ :: vals) (indexEmplace idx key (freshAddr vals)) where
  addr_nodup := by
    rw [List.map_cons, List.nodup_cons]
    exact ⟨freshAddr_not_mem vals, h.addr_nodup⟩
  key_nodup := by
    rw [List.map_cons, List.nodup_cons]
    exact ⟨h.find_none_iff.mp hk, h.key_nodup⟩
  index_perm := by
    rw [List.map_cons]
    exact (indexEmplace_perm _ (indexFind_none_iff.mp hk)).trans (h.index_perm.cons _)

theorem valuesSplice_perm {vals : List (Node K V)} {n : Node K V}
    (hnd : (vals.map Node.addr).Nodup) (hn : n ∈ vals) :
    (valuesSplice vals n).Perm vals := by
  induction vals with
  | nil => cases hn
  | cons m rest ih =>
    rw [List.map_cons, List.nodup_cons] at hnd
    unfold valuesSplice at ih ⊢
    by_cases hm : m.addr = n.addr
    · have hmn : m = n := by
        rcases List.mem_cons.mp hn with e | e
        · exact e.symm
        · exact absurd (hm ▸ List.mem_map_of_mem Node.addr e) hnd.1
      subst hmn
      have hrest : valuesErase rest m.addr = rest := by
        unfold valuesErase
        rw [List.filter_eq_self]
        intro x hx
        have : x.addr ≠ m.addr := fun e => hnd.1 (e ▸ List.mem_map_of_mem Node.addr hx)
        simpa using this
      have : valuesErase (m :: rest) m.addr = rest := by
        rw [← hrest]; simp [valuesErase, List.filter_cons]
      rw [this]
    · rcases List.mem_cons.mp hn with e | e
      · exact absurd (e ▸ rfl) hm
      · have h2 : valuesErase (m :: rest) n.addr = m :: valuesErase rest n.addr := by
          simp [valuesErase, List.filter_cons, hm]
        rw [h2]
        exact (List.Perm.swap _ _ _).trans ((ih hnd.2 e).cons m)

theorem Linked.splice {vals : List (Node K V)} {idx : List (K × Nat)}
    (h : Linked vals idx) {n : Node K V} (hn : n ∈ vals) :
    Linked (valuesSplice vals n) idx where
  addr_nodup := ((valuesSplice_perm h.addr_nodup hn).map Node.addr).nodup_iff.mpr h.addr_nodup
  key_nodup := ((valuesSplice_perm h.addr_nodup hn).map Node.key).nodup_iff.mpr h.key_nodup
  index_perm := h.index_perm.trans ((valuesSplice_perm h.addr_nodup hn).map entryOf).symm

theorem valuesAssign_map_addr (vals : List (Node K V)) (it : Nat) (value : V) :
    (valuesAssign vals it value).map Node.addr = vals.map Node.addr := by
  unfold valuesAssign
  rw [List.map_map]
  apply List.map_congr_left
  intro n _
  by_cases h : n.addr = it <;> simp [h]

theorem valuesAssign_map_key (vals : List (Node K V)) (it : Nat) (value : V) :
    (valuesAssign vals it value).map Node.key = vals.map Node.key := by
  unfold valuesAssign
  rw [List.map_map]
  apply List.map_congr_left
  intro n _
  by_cases h : n.addr = it <;> simp [h]

theorem valuesAssign_map_entryOf (vals : List (Node K V)) (it : Nat) (value : V) :
    (valuesAssign vals it value).map entryOf = vals.map entryOf := by
  unfold valuesAssign
  rw [List.map_map]
  apply List.map_congr_left
  intro n _
  by_cases h : n.addr = it <;> simp [h, entryOf]

theorem Linked.assign {vals : List (Node K V)} {idx : List (K × Nat)}
    (h : Linked vals idx) (it : Nat) (value : V) : Linked (valuesAssign vals it value) idx where
  addr_nodup := by rw [valuesAssign_map_addr]; exact h.addr_nodup
  key_nodup := by rw [valuesAssign_map_key]; exact h.key_nodup
  index_perm := by rw [valuesAssign_map_entryOf]; exact h.index_perm

theorem valuesMark_map_addr (vals : List (Node K V)) (it : Nat) :
    (valuesMark vals it).map Node.addr = vals.map Node.addr := by
  unfold valuesMark
  rw [List.map_map]
  apply List.map_congr_left
  intro n _
  by_cases h : n.addr = it <;> simp [h]

theorem valuesMark_map_key (vals : List (Node K V)) (it : Nat) :
    (valuesMark vals it).map Node.key = vals.map Node.key := by
  unfold valuesMark
  rw [List.map_map]
  apply List.map_congr_left
  intro n _
  by_cases h : n.addr = it <;> simp [h]

theorem valuesMark_map_entryOf (vals : List (Node K V)) (it : Nat) :
    (valuesMark vals it).map entryOf = vals.map entryOf := by
  unfold valuesMark
  rw [List.map_map]
  apply List.map_congr_left
  intro n _
  by_cases h : n.addr = it <;> simp [h, entryOf]

theorem Linked.mark {vals : List (Node K V)} {idx : List (K × Nat)}
    (h : Linked vals idx) (it : Nat) : Linked (valuesMark vals it) idx where
  addr_nodup := by rw [valuesMark_map_addr]; exact h.addr_nodup
  key_nodup := by rw [valuesMark_map_key]; exact h.key_nodup
  index_perm := by rw [valuesMark_map_entryOf]; exact h.index_perm

/-! ## Removal of a cell -/

theorem Frame.refl (c : CLRUCache K V) : Frame c c := ⟨rfl, rfl, rfl, rfl, rfl⟩

theorem Frame.trans {a b c : CLRUCache K V} (h1 : Frame a b) (h2 : Frame b c) : Frame a c :=
  ⟨h2.1.trans h1.1, h2.2.1.trans h1.2.1, h2.2.2.1.trans h1.2.2.1,
    h2.2.2.2.1.trans h1.2.2.2.1, h2.2.2.2.2.trans h1.2.2.2.2⟩

theorem eraseNode_frame (c : CLRUCache K V) (n : Node K V) : Frame c (eraseNode c n) :=
  ⟨rfl, rfl, rfl, rfl, rfl⟩

theorem Wf.wf_eraseNode {c : CLRUCache K V} (h : Wf c) {n : Node K V} (hn : n ∈ c.m_values) :
    Wf (eraseNode c n) where
  linked := h.linked.erase hn
  count_eq := by
    have := valuesErase_length h.linked.addr_nodup hn
    have h2 := h.count_eq
    simp only [LRU.eraseNode]
    omega

theorem RemovePosValue_mem {c : CLRUCache K V} (h : Wf c) {n : Node K V}
    (hn : n ∈ c.m_values) (valueptr : Bool) :
    RemovePosValue c (some n.addr) valueptr
      = some (true, if valueptr then some n.data.value else none, eraseNode c n) := by
  simp [RemovePosValue, valuesDeref_of_mem h.linked.addr_nodup hn, LRU.eraseNode]

theorem RemovePosIndex_mem {c : CLRUCache K V} (h : Wf c) {n : Node K V}
    (hn : n ∈ c.m_values) (valueptr : Bool) :
    RemovePosIndex c (some n.key) valueptr
      = some (true, if valueptr then some n.data.value else none, eraseNode c n) := by
  simp [RemovePosIndex, h.linked.find_of_mem hn, valuesDeref_of_mem h.linked.addr_nodup hn,
    LRU.eraseNode]

theorem valuesErase_append_last {init : List (Node K V)} {n : Node K V}
    (hnd : ((init ++ [n]).map Node.addr).Nodup) :
    valuesErase (init ++ [n]) n.addr = init := by
  unfold valuesErase
  rw [List.filter_append]
  have h1 : init.filter (fun m => decide (m.addr ≠ n.addr)) = init := by
    rw [List.filter_eq_self]
    intro x hx
    rw [List.map_append, List.nodup_append] at hnd
    have : x.addr ≠ n.addr := fun e =>
      hnd.2.2 (List.mem_map_of_mem Node.addr hx) (by simp [e])
    simpa using this
  rw [h1]; simp

theorem RemoveLast_append {c : CLRUCache K V} (h : Wf c) {init : List (Node K V)}
    {n : Node K V} (hv : c.m_values = init ++ [n]) (valueptr : Bool) :
    RemoveLast c valueptr
        = some (true, if valueptr then some n.data.value else none, eraseNode c n)
      ∧ (eraseNode c n).m_values = init := by
  have hn : n ∈ c.m_values := by rw [hv]; simp
  constructor
  · unfold RemoveLast
    rw [hv, List.getLast?_concat]
    exact RemovePosValue_mem h hn valueptr
  · have := h.linked.addr_nodup
    rw [hv] at this
    simp only [LRU.eraseNode, hv]
    exact valuesErase_append_last this

theorem RemoveLast_nonempty {c : CLRUCache K V} (h : Wf c) (hne : c.m_values ≠ [])
    (valueptr : Bool) :
    ∃ n, n ∈ c.m_values ∧ c.m_values.getLast? = some n
      ∧ RemoveLast c valueptr
          = some (true, if valueptr then some n.data.value else none, eraseNode c n)
      ∧ (eraseNode c n).m_values = c.m_values.dropLast := by
  have hv := (List.dropLast_append_getLast hne).symm
  obtain ⟨h1, h2⟩ := RemoveLast_append h hv valueptr
  refine ⟨c.m_values.getLast hne, List.getLast_mem hne, List.getLast?_eq_getLast _ hne, h1, h2⟩

theorem removeLastLoop_spec (num : Nat) :
    ∀ {c : CLRUCache K V}, Wf c → num ≤ c.m_values.length →
      ∃ c1, removeLastLoop num c = some c1 ∧ Wf c1 ∧ Frame c c1 ∧
        c1.m_values = c.m_values.take (c.m_values.length - num) := by
  induction num with
  | zero =>
    intro c h _
    exact ⟨c, rfl, h, Frame.refl c, by simp⟩
  | succ num ih =>
    intro c h hlen
    have hne : c.m_values ≠ [] := by
      intro e; rw [e] at hlen; simp at hlen
    obtain ⟨n, hn, _, hrun, hvals⟩ := RemoveLast_nonempty h hne false
    have hwf := h.wf_eraseNode hn
    have hlen1 : num ≤ (eraseNode c n).m_values.length := by
      rw [hvals, List.length_dropLast]; omega
    obtain ⟨c1, h1, h2, h3, h4⟩ := ih hwf hlen1
    refine ⟨c1, ?_, h2, (eraseNode_frame c n).trans h3, ?_⟩
    · simp only [removeLastLoop, hrun]
      exact h1
    · rw [h4, hvals, List.length_dropLast, List.dropLast_eq_take, List.take_take]
      congr 1
      omega

/-! ## Sweep and truncation -/

theorem removeDelLoop_spec (ks : List K) :
    ∀ {c : CLRUCache K V}, Wf c → ks.Nodup → (∀ k ∈ ks, k ∈ c.m_values.map Node.key) →
      ∃ c1, removeDelLoop ks c = some c1 ∧ Wf c1 ∧ Frame c c1 ∧
        c1.m_values = c.m_values.filter (fun n => decide (n.key ∉ ks)) := by
  induction ks with
  | nil =>
    intro c h _ _
    exact ⟨c, rfl, h, Frame.refl c, by simp⟩
  | cons k ks ih =>
    intro c h hnd hks
    rw [List.nodup_cons] at hnd
    obtain ⟨n, hn, hnk⟩ := List.mem_map.mp (hks k (List.mem_cons_self k ks))
    have hrun := RemovePosIndex_mem h hn false
    rw [hnk] at hrun
    have hwf := h.wf_eraseNode hn
    have hvals : (eraseNode c n).m_values = c.m_values.filter (fun m => decide (m.key ≠ k)) := by
      rw [← hnk]; exact valuesErase_eq_filter_key h.linked hn
    have hks1 : ∀ k1 ∈ ks, k1 ∈ (eraseNode c n).m_values.map Node.key := by
      intro k1 hk1
      obtain ⟨m, hm, hmk⟩ := List.mem_map.mp (hks k1 (List.mem_cons_of_mem k hk1))
      rw [hvals]
      refine List.mem_map.mpr ⟨m, List.mem_filter.mpr ⟨hm, ?_⟩, hmk⟩
      have : m.key ≠ k := fun e => hnd.1 (e ▸ hmk ▸ hk1)
      simpa using this
    obtain ⟨c1, h1, h2, h3, h4⟩ := ih hwf hnd.2 hks1
    refine ⟨c1, ?_, h2, (eraseNode_frame c n).trans h3, ?_⟩
    · simp only [removeDelLoop, hrun]
      exact h1
    · rw [h4, hvals, List.filter_filter]
      apply List.filter_congr
      intro m _
      simp [List.mem_cons, not_or, Bool.and_comm]

theorem collectDel_spec {vals : List (Node K V)} (hnd : (vals.map Node.addr).Nodup)
    (idx : List (K × Nat)) :
    (∀ e ∈ idx, ∃ n ∈ vals, entryOf n = e) →
      ∃ ks, collectDel vals idx = some ks ∧ ks.Sublist (idx.map Prod.fst) ∧
        ∀ k, k ∈ ks ↔ ∃ n ∈ vals, entryOf n ∈ idx ∧ n.key = k ∧ n.data._del = true := by
  induction idx with
  | nil =>
    intro _
    exact ⟨[], rfl, List.Sublist.refl _, by simp⟩
  | cons e rest ih =>
    intro hall
    obtain ⟨ks, h1, h2, h3⟩ := ih (fun e1 he1 => hall e1 (List.mem_cons_of_mem e he1))
    obtain ⟨n, hn, hne⟩ := hall e (List.mem_cons_self e rest)
    have hderef : valuesDeref vals e.2 = some n := by
      rw [← hne]; exact valuesDeref_of_mem hnd hn
    have hkey : e.1 = n.key := by rw [← hne]; rfl
    by_cases hdel : n.data._del = true
    · refine ⟨e.1 :: ks, ?_, ?_, ?_⟩
      · simp [collectDel, hderef, h1, hdel]
      · rw [List.map_cons]; exact h2.cons₂ e.1
      · intro k
        rw [List.mem_cons, h3 k]
        constructor
        · rintro (hk | ⟨m, hm, hme, hmk, hmd⟩)
          · exact ⟨n, hn, by rw [hne]; exact List.mem_cons_self e rest, by rw [hk, hkey], hdel⟩
          · exact ⟨m, hm, List.mem_cons_of_mem e hme, hmk, hmd⟩
        · rintro ⟨m, hm, hme, hmk, hmd⟩
          rcases List.mem_cons.mp hme with he | he
          · left; rw [← hmk, ← he]; rfl
          · exact Or.inr ⟨m, hm, he, hmk, hmd⟩
    · refine ⟨ks, ?_, ?_, ?_⟩
      · simp [collectDel, hderef, h1, hdel]
      · rw [List.map_cons]; exact h2.cons e.1
      · intro k
        rw [h3 k]
        constructor
        · rintro ⟨m, hm, hme, hmk, hmd⟩
          exact ⟨m, hm, List.mem_cons_of_mem e hme, hmk, hmd⟩
        · rintro ⟨m, hm, hme, hmk, hmd⟩
          rcases List.mem_cons.mp hme with he | he
          · have hma : m.addr = n.addr := by
              have := congrArg Prod.snd (he.trans hne.symm)
              simpa [entryOf] using this
            have hmn := node_eq_of_addr hnd hm hn hma
            rw [hmn] at hmd
            exact absurd hmd hdel
          · exact ⟨m, hm, he, hmk, hmd⟩

/-- The sweep removes exactly the marked cells and keeps the others in order. -/
theorem CleanNeedDel_spec {c : CLRUCache K V} (h : Wf c) :
    ∃ c1, CleanNeedDel c = some c1 ∧ Wf c1 ∧ Frame c c1 ∧
      c1.m_values = c.m_values.filter (fun n => !n.data._del) := by
  have hall : ∀ e ∈ c.m_indexs, ∃ n ∈ c.m_values, entryOf n = e := by
    intro e he
    exact List.mem_map.mp (h.linked.index_perm.mem_iff.mp he)
  obtain ⟨ks, h1, h2, h3⟩ := collectDel_spec h.linked.addr_nodup c.m_indexs hall
  have hnd : ks.Nodup := h.linked.index_nodup.sublist h2
  have hks : ∀ k ∈ ks, k ∈ c.m_values.map Node.key := by
    intro k hk
    obtain ⟨n, hn, _, hnk, _⟩ := (h3 k).mp hk
    exact List.mem_map.mpr ⟨n, hn, hnk⟩
  obtain ⟨c1, r1, r2, r3, r4⟩ := removeDelLoop_spec ks h hnd hks
  have hrun : CleanNeedDel c = removeDelLoop ks c := by
    unfold CleanNeedDel
    rw [h1]
    cases ks with
    | nil => rfl
    | cons k ks => rfl
  refine ⟨c1, hrun.trans r1, r2, r3, ?_⟩
  rw [r4]
  apply List.filter_congr
  intro n hn
  have hiff : n.key ∈ ks ↔ n.data._del = true := by
    rw [h3]
    constructor
    · rintro ⟨m, hm, _, hmk, hmd⟩
      rw [← node_eq_of_key h.linked.key_nodup hm hn hmk]; exact hmd
    · intro hd
      exact ⟨n, hn, h.linked.index_perm.mem_iff.mpr (List.mem_map_of_mem entryOf hn), rfl, hd⟩
  by_cases hd : n.data._del = true
  · simp [hiff.mpr hd, hd]
  · have : n.key ∉ ks := fun hk => hd (hiff.mp hk)
    simp [this, hd]

theorem CleanByLRU_skip {c : CLRUCache K V} (hlt : c.m_cache_count < c.m_clean_size) :
    CleanByLRU c = some c := by
  simp [CleanByLRU, hlt]

/-- When enough cells are left, the truncation drops exactly the last `m_clean_size` of them. -/
theorem CleanByLRU_spec {c : CLRUCache K V} (h : Wf c) (hpos : 0 ≤ c.m_clean_size)
    (hge : c.m_clean_size ≤ c.m_cache_count) :
    ∃ c1, CleanByLRU c = some c1 ∧ Wf c1 ∧ Frame c c1 ∧
      c1.m_values = c.m_values.take (c.m_values.length - c.m_clean_size.toNat) := by
  have hlen : c.m_clean_size.toNat ≤ c.m_values.length := by
    have := h.count_eq
    omega
  obtain ⟨c1, h1, h2, h3, h4⟩ := removeLastLoop_spec c.m_clean_size.toNat h hlen
  refine ⟨c1, ?_, h2, h3, h4⟩
  unfold CleanByLRU
  rw [if_neg (by omega), if_neg (by omega)]
  exact h1

/-- The truncation always has defined behaviour on a well-formed state. -/
theorem CleanByLRU_total {c : CLRUCache K V} (h : Wf c) (hpos : 0 ≤ c.m_clean_size) :
    ∃ c1, CleanByLRU c = some c1 ∧ Wf c1 ∧ Frame c c1 ∧
      c1.m_values.length ≤ c.m_values.length ∧
      (c.m_clean_size ≤ c.m_cache_count →
        c1.m_values = c.m_values.take (c.m_values.length - c.m_clean_size.toNat)) ∧
      (c.m_cache_count < c.m_clean_size → c1 = c) := by
  by_cases hlt : c.m_cache_count < c.m_clean_size
  · exact ⟨c, CleanByLRU_skip hlt, h, Frame.refl c, le_refl _, fun hge => by omega, fun _ => rfl⟩
  · obtain ⟨c1, h1, h2, h3, h4⟩ := CleanByLRU_spec h hpos (by omega)
    refine ⟨c1, h1, h2, h3, ?_, fun _ => h4, fun hl => absurd hl hlt⟩
    rw [h4, List.length_take]; omega

/-! ## Insertion -/

theorem Inv.of_frame {c c1 : CLRUCache K V} (h : Inv c) (hwf : Wf c1) (hf : Frame c c1)
    (hle : c1.m_cache_count ≤ c.m_cache_count) : Inv c1 where
  wf := hwf
  clean_pos := by rw [hf.2.1]; exact h.clean_pos
  clean_le := by rw [hf.1, hf.2.1]; exact h.clean_le
  count_le := by rw [hf.1]; exact le_trans hle h.count_le

theorem Inv.nonempty_of_full {c : CLRUCache K V} (h : Inv c)
    (hfull : c.m_cache_count ≥ c.m_limit) : c.m_values ≠ [] := by
  intro e
  have h1 := h.wf.count_eq
  have h2 := h.clean_pos
  have h3 := h.clean_le
  rw [e] at h1
  simp at h1
  omega

theorem CleanCapacity_spec {c : CLRUCache K V} (h : Wf c) (hpos : 0 ≤ c.m_clean_size) :
    ∃ c1 c2, CleanNeedDel c = some c1 ∧ CleanByLRU c1 = some c2 ∧ CleanCapacity c = some c2 ∧
      Wf c1 ∧ Wf c2 ∧ Frame c c1 ∧ Frame c c2 ∧
      c1.m_values = c.m_values.filter (fun n => !n.data._del) ∧
      c2.m_values.length ≤ c1.m_values.length ∧
      (c1.m_clean_size ≤ c1.m_cache_count →
        c2.m_values = c1.m_values.take (c1.m_values.length - c1.m_clean_size.toNat)) ∧
      (c1.m_cache_count < c1.m_clean_size → c2 = c1) := by
  obtain ⟨c1, h1, h2, h3, h4⟩ := CleanNeedDel_spec h
  have hpos1 : 0 ≤ c1.m_clean_size := by rw [h3.2.1]; exact hpos
  obtain ⟨c2, g1, g2, g3, g4, g5, g6⟩ := CleanByLRU_total h2 hpos1
  refine ⟨c1, c2, h1, g1, ?_, h2, g2, h3, h3.trans g3, h4, g4, g5, g6⟩
  simp [CleanCapacity, h1, g1]

/-- The capacity step of `Add` is defined and leaves strictly fewer than `m_limit` cells. -/
theorem makeRoom_spec {c : CLRUCache K V} (h : Inv c) (removed : Bool) :
    ∃ out c1, makeRoom c removed = some (out, c1) ∧ Wf c1 ∧ Frame c c1 ∧
      c1.m_values.Sublist c.m_values ∧ c1.m_cache_count < c1.m_limit ∧
      c1.m_cache_count ≤ c.m_cache_count := by
  by_cases hfull : c.m_cache_count ≥ c.m_limit
  · have hne := h.nonempty_of_full hfull
    cases removed with
    | true =>
      obtain ⟨n, hn, _, hrun, hvals⟩ := RemoveLast_nonempty h.wf hne true
      refine ⟨some n.data.value, eraseNode c n, ?_, h.wf.wf_eraseNode hn, eraseNode_frame c n,
        ?_, ?_, ?_⟩
      · simp [makeRoom, hfull, hrun]
      · rw [hvals]; exact List.dropLast_sublist _
      · have := h.count_le
        simp only [eraseNode]; omega
      · simp only [eraseNode]; omega
    | false =>
      obtain ⟨c1, c2, _, _, hrun, hw1, hw2, hf1, hf2, hv1, hlen, htake, hskip⟩ :=
        CleanCapacity_spec h.wf (le_of_lt h.clean_pos)
      have hsub1 : c1.m_values.Sublist c.m_values := by rw [hv1]; exact List.filter_sublist _
      have hc := h.wf.count_eq
      have hc1 := hw1.count_eq
      have hc2 := hw2.count_eq
      have hl1 := hsub1.length_le
      have hcl := h.clean_le
      have hcp := h.clean_pos
      have hcnt := h.count_le
      have e1 : c1.m_clean_size = c.m_clean_size := hf1.2.1
      have e2 : c2.m_limit = c.m_limit := hf2.1
      have hdrop : c2.m_values.length < c.m_values.length := by
        by_cases hnochange : c1.m_values.length = c.m_values.length
        · have hge : c1.m_clean_size ≤ c1.m_cache_count := by omega
          have := htake hge
          rw [this, List.length_take]
          omega
        · omega
      refine ⟨none, c2, ?_, hw2, hf2, ?_, ?_, ?_⟩
      · simp [makeRoom, hfull, hrun]
      · by_cases hge : c1.m_clean_size ≤ c1.m_cache_count
        · rw [htake hge]
          exact (List.take_sublist _ _).trans hsub1
        · rw [hskip (by omega)]; exact hsub1
      · omega
      · omega
  · refine ⟨none, c, ?_, h.wf, Frame.refl c, List.Sublist.refl _, by omega, le_refl _⟩
    simp [makeRoom, hfull]

/-- The state `Add` builds once room has been made in `c1`. -/
theorem insertFront_wf {c1 : CLRUCache K V} (h : Wf c1) {key : K}
    (hk : indexFind c1.m_indexs key = none) (value : V) : Wf (insertFront c1 key value) where
  linked := h.linked.insert hk _
  count_eq := by
    have := h.count_eq
    simp only [insertFront, List.length_cons]
    omega

theorem absent_of_sublist {c c1 : CLRUCache K V} (h : Wf c) (h1 : Wf c1)
    (hsub : c1.m_values.Sublist c.m_values) {key : K}
    (hk : indexFind c.m_indexs key = none) : indexFind c1.m_indexs key = none := by
  rw [h1.linked.find_none_iff]
  rw [h.linked.find_none_iff] at hk
  exact fun hm => hk ((hsub.map Node.key).subset hm)

/-- `Add` of an absent key: defined, and the resulting state in terms of the capacity step. -/
theorem Add_absent {c : CLRUCache K V} (h : Inv c) {key : K}
    (hk : indexFind c.m_indexs key = none) (value : V) (removed : Bool) :
    ∃ out c1, makeRoom c removed = some (out, c1) ∧
      Add c key value removed = some (out, insertFront c1 key value) ∧
      Wf c1 ∧ Frame c c1 ∧ c1.m_values.Sublist c.m_values ∧
      indexFind c1.m_indexs key = none ∧ Inv (insertFront c1 key value) := by
  obtain ⟨out, c1, hrun, hwf, hf, hsub, hlt, _⟩ := makeRoom_spec h removed
  have hk1 := absent_of_sublist h.wf hwf hsub hk
  refine ⟨out, c1, hrun, ?_, hwf, hf, hsub, hk1, ?_⟩
  · simp [Add, hk, hrun]
  · exact {
      wf := insertFront_wf hwf hk1 value
      clean_pos := by simp only [insertFront]; rw [hf.2.1]; exact h.clean_pos
      clean_le := by simp only [insertFront]; rw [hf.1, hf.2.1]; exact h.clean_le
      count_le := by simp only [insertFront]; omega }

/-- `Add` of a present key: the record is overwritten in place. -/
theorem Add_present {c : CLRUCache K V} (h : Inv c) {key : K} {it : Nat}
    (hk : indexFind c.m_indexs key = some it) (value : V) (removed : Bool) :
    Add c key value removed = some (none, { c with m_values := valuesAssign c.m_values it value })
      ∧ Inv { c with m_values := valuesAssign c.m_values it value } := by
  obtain ⟨n, _, _, _, hd⟩ := h.wf.linked.find_deref hk
  constructor
  · simp [Add, hk, hd]
  · exact {
      wf := {
        linked := h.wf.linked.assign it value
        count_eq := by
          have := h.wf.count_eq
          simp only [valuesAssign, List.length_map]
          exact this }
      clean_pos := h.clean_pos
      clean_le := h.clean_le
      count_le := h.count_le }

theorem Add_inv {c : CLRUCache K V} (h : Inv c) (key : K) (value : V) (removed : Bool) :
    ∃ r, Add c key value removed = some r ∧ Inv r.2 := by
  rcases hk : indexFind c.m_indexs key with _ | it
  · obtain ⟨out, c1, _, hrun, _, _, _, _, hinv⟩ := Add_absent h hk value removed
    exact ⟨_, hrun, hinv⟩
  · obtain ⟨hrun, hinv⟩ := Add_present h hk value removed
    exact ⟨_, hrun, hinv⟩

theorem AddVec_inv (kv_vec : List (K × V)) :
    ∀ {c : CLRUCache K V}, Inv c → ∃ c1, AddVec c kv_vec = some c1 ∧ Inv c1 := by
  induction kv_vec with
  | nil => intro c h; exact ⟨c, rfl, h⟩
  | cons kv rest ih =>
    intro c h
    obtain ⟨r, hrun, hinv⟩ := Add_inv h kv.1 kv.2 false
    obtain ⟨c1, h1, h2⟩ := ih hinv
    exact ⟨c1, by simp only [AddVec, hrun]; exact h1, h2⟩

/-! ## Invariant preservation -/

theorem Inv.inv_eraseNode {c : CLRUCache K V} (h : Inv c) {n : Node K V} (hn : n ∈ c.m_values) :
    Inv (eraseNode c n) :=
  h.of_frame (h.wf.wf_eraseNode hn) (eraseNode_frame c n) (by simp only [LRU.eraseNode]; omega)

/-- `Remove` of a present key takes its cell out; of an absent key it does nothing. -/
theorem Remove_spec {c : CLRUCache K V} (h : Wf c) (key : K) (valueptr : Bool) :
    (indexFind c.m_indexs key = none ∧ Remove c key valueptr = some (none, c)) ∨
    (∃ n, n ∈ c.m_values ∧ n.key = key ∧
      Remove c key valueptr
        = some (if valueptr then some n.data.value else none, eraseNode c n)) := by
  rcases hk : indexFind c.m_indexs key with _ | it
  · left; exact ⟨rfl, by simp [Remove, hk]⟩
  · right
    obtain ⟨n, hn, hnk, _, _⟩ := h.linked.find_deref hk
    refine ⟨n, hn, hnk, ?_⟩
    have := RemovePosIndex_mem h hn valueptr
    rw [hnk] at this
    simp [Remove, hk, this]

theorem RemoveFirst_spec {c : CLRUCache K V} (h : Wf c) (valueptr : Bool) :
    (c.m_values = [] ∧ RemoveFirst c valueptr = some (false, none, c)) ∨
    (∃ n, n ∈ c.m_values ∧ c.m_values.head? = some n ∧
      RemoveFirst c valueptr
        = some (true, if valueptr then some n.data.value else none, eraseNode c n)) := by
  rcases hv : c.m_values with _ | ⟨n, rest⟩
  · left; exact ⟨rfl, by simp [RemoveFirst, valuesBegin, hv, RemovePosValue]⟩
  · right
    have hn : n ∈ c.m_values := by rw [hv]; exact List.mem_cons_self n rest
    refine ⟨n, by rw [← hv]; exact hn, rfl, ?_⟩
    have := RemovePosValue_mem h hn valueptr
    simpa [RemoveFirst, valuesBegin, hv] using this

/-- `Find` of a present key: the value found and the promotion of its cell. -/
theorem Find_present {c : CLRUCache K V} (h : Wf c) {key : K} {it : Nat}
    (hk : indexFind c.m_indexs key = some it) :
    ∃ n, n ∈ c.m_values ∧ n.key = key ∧ n.addr = it ∧
      Find c key = some (some n.data.value, { c with m_values := valuesSplice c.m_values n }) := by
  obtain ⟨n, hn, hnk, hna, hd⟩ := h.linked.find_deref hk
  exact ⟨n, hn, hnk, hna, by simp [Find, hk, hd]⟩

theorem Find_absent {c : CLRUCache K V} {key : K} (hk : indexFind c.m_indexs key = none) :
    Find c key = some (none, { c with m_miss_count := intIncrement c.m_miss_count }) := by
  simp [Find, hk]

theorem Wf.wf_splice {c : CLRUCache K V} (h : Wf c) {n : Node K V} (hn : n ∈ c.m_values) :
    Wf { c with m_values := valuesSplice c.m_values n } where
  linked := h.linked.splice hn
  count_eq := by
    have := (valuesSplice_perm h.linked.addr_nodup hn).length_eq
    have h2 := h.count_eq
    simp only
    omega

theorem Find_inv {c : CLRUCache K V} (h : Inv c) (key : K) :
    ∃ r, Find c key = some r ∧ Inv r.2 := by
  rcases hk : indexFind c.m_indexs key with _ | it
  · exact ⟨_, Find_absent hk, ⟨⟨h.wf.linked, h.wf.count_eq⟩, h.clean_pos, h.clean_le, h.count_le⟩⟩
  · obtain ⟨n, hn, _, _, hrun⟩ := Find_present h.wf hk
    exact ⟨_, hrun, ⟨h.wf.wf_splice hn, h.clean_pos, h.clean_le, h.count_le⟩⟩

theorem Peek_state {c : CLRUCache K V} {key : K} {r : Option V × CLRUCache K V}
    (h : Peek c key = some r) : r.2 = c := by
  unfold Peek at h
  rcases hk : indexFind c.m_indexs key with _ | it
  · simp [hk] at h; rw [← h]
  · rcases hd : valuesDeref c.m_values it with _ | n
    · simp [hk, hd] at h
    · simp [hk, hd] at h; rw [← h]

theorem Front_state {c : CLRUCache K V} {r : Option V × CLRUCache K V}
    (h : Front c = some r) : r.2 = c := by
  unfold Front at h
  by_cases h0 : c.m_cache_count ≤ 0
  · simp [h0] at h; rw [← h]
  · rcases hv : c.m_values.head? with _ | n
    · simp [h0, hv] at h
    · simp [h0, hv] at h; rw [← h]

theorem MarkDelete_spec {c : CLRUCache K V} (h : Wf c) (key : K) :
    (indexFind c.m_indexs key = none ∧ MarkDelete c key = some c) ∨
    (∃ n, n ∈ c.m_values ∧ n.key = key ∧
      MarkDelete c key = some { c with m_values := valuesMark c.m_values n.addr }) := by
  rcases hk : indexFind c.m_indexs key with _ | it
  · left; exact ⟨rfl, by simp [MarkDelete, hk]⟩
  · right
    obtain ⟨n, hn, hnk, hna, hd⟩ := h.linked.find_deref hk
    exact ⟨n, hn, hnk, by simp [MarkDelete, hk, hd, hna]⟩

theorem Wf.wf_mark {c : CLRUCache K V} (h : Wf c) (it : Nat) :
    Wf { c with m_values := valuesMark c.m_values it } where
  linked := h.linked.mark it
  count_eq := by
    have := h.count_eq
    simp only [valuesMark, List.length_map]
    exact this

theorem Inv.construct {limit clean_size expire_time : Int} {c : CLRUCache K V}
    (h : CLRUCache.new limit clean_size expire_time = some c) : Inv c := by
  unfold CLRUCache.new at h
  by_cases hc : 0 < limit ∧ 0 < clean_size ∧ clean_size ≤ limit
  · rw [if_pos hc] at h
    cases h
    exact {
      wf := {
        linked := ⟨List.nodup_nil, List.nodup_nil, List.Perm.refl _⟩
        count_eq := rfl }
      clean_pos := hc.2.1
      clean_le := hc.2.2
      count_le := le_of_lt hc.1 }
  · rw [if_neg hc] at h
    cases h

/-- Every public call keeps the invariant. -/
theorem Inv.call {c c1 : CLRUCache K V} (h : Inv c) (op : Call K V)
    (hrun : Call.run c op = some c1) : Inv c1 := by
  cases op with
  | add key value removed =>
    obtain ⟨r, h1, h2⟩ := Add_inv h key value removed
    simp only [Call.run, h1, Option.map_some', Option.some.injEq] at hrun
    rw [← hrun]; exact h2
  | addVec kv_vec =>
    obtain ⟨c2, h1, h2⟩ := AddVec_inv kv_vec h
    simp only [Call.run, h1, Option.some.injEq] at hrun
    rw [← hrun]; exact h2
  | remove key valueptr =>
    rcases Remove_spec h.wf key valueptr with ⟨_, h1⟩ | ⟨n, hn, _, h1⟩
    · simp only [Call.run, h1, Option.map_some', Option.some.injEq] at hrun
      rw [← hrun]; exact h
    · simp only [Call.run, h1, Option.map_some', Option.some.injEq] at hrun
      rw [← hrun]; exact h.inv_eraseNode hn
  | removeFirst valueptr =>
    rcases RemoveFirst_spec h.wf valueptr with ⟨_, h1⟩ | ⟨n, hn, _, h1⟩
    · simp only [Call.run, h1, Option.map_some', Option.some.injEq] at hrun
      rw [← hrun]; exact h
    · simp only [Call.run, h1, Option.map_some', Option.some.injEq] at hrun
      rw [← hrun]; exact h.inv_eraseNode hn
  | removeLast valueptr =>
    by_cases hne : c.m_values = []
    · simp [Call.run, RemoveLast, hne] at hrun
    · obtain ⟨n, hn, _, h1, _⟩ := RemoveLast_nonempty h.wf hne valueptr
      simp only [Call.run, h1, Option.map_some', Option.some.injEq] at hrun
      rw [← hrun]; exact h.inv_eraseNode hn
  | clear =>
    simp only [Call.run, Option.some.injEq] at hrun
    rw [← hrun]
    exact {
      wf := {
        linked := ⟨List.nodup_nil, List.nodup_nil, List.Perm.refl _⟩
        count_eq := rfl }
      clean_pos := h.clean_pos
      clean_le := h.clean_le
      count_le := le_trans (le_of_lt h.clean_pos) h.clean_le }
  | cleanCapacity =>
    obtain ⟨c2, c3, _, _, h1, hw2, hw3, _, hf3, hv2, hlen, _, _⟩ :=
      CleanCapacity_spec h.wf (le_of_lt h.clean_pos)
    simp only [Call.run, h1, Option.some.injEq] at hrun
    rw [← hrun]
    refine h.of_frame hw3 hf3 ?_
    have := (List.filter_sublist (p := fun n : Node K V => !n.data._del) c.m_values).length_le
    rw [← hv2] at this
    have e1 := h.wf.count_eq
    have e3 := hw3.count_eq
    omega
  | cleanByLRU =>
    obtain ⟨c2, h1, hw, hf, hlen, _, _⟩ := CleanByLRU_total h.wf (le_of_lt h.clean_pos)
    simp only [Call.run, h1, Option.some.injEq] at hrun
    rw [← hrun]
    refine h.of_frame hw hf ?_
    have e1 := h.wf.count_eq
    have e3 := hw.count_eq
    omega
  | cleanNeedDel =>
    obtain ⟨c2, h1, hw, hf, hv⟩ := CleanNeedDel_spec h.wf
    simp only [Call.run, h1, Option.some.injEq] at hrun
    rw [← hrun]
    refine h.of_frame hw hf ?_
    have := (List.filter_sublist (p := fun n : Node K V => !n.data._del) c.m_values).length_le
    rw [← hv] at this
    have e1 := h.wf.count_eq
    have e3 := hw.count_eq
    omega
  | find key =>
    obtain ⟨r, h1, h2⟩ := Find_inv h key
    simp only [Call.run, h1, Option.map_some', Option.some.injEq] at hrun
    rw [← hrun]; exact h2
  | peek key =>
    rcases hp : Peek c key with _ | r
    · simp [Call.run, hp] at hrun
    · simp only [Call.run, hp, Option.map_some', Option.some.injEq] at hrun
      rw [← hrun, Peek_state hp]; exact h
  | front =>
    rcases hp : Front c with _ | r
    · simp [Call.run, hp] at hrun
    · simp only [Call.run, hp, Option.map_some', Option.some.injEq] at hrun
      rw [← hrun, Front_state hp]; exact h
  | markDelete key =>
    rcases MarkDelete_spec h.wf key with ⟨_, h1⟩ | ⟨n, _, _, h1⟩
    · simp only [Call.run, h1, Option.some.injEq] at hrun
      rw [← hrun]; exact h
    · simp only [Call.run, h1, Option.some.injEq] at hrun
      rw [← hrun]
      exact ⟨h.wf.wf_mark n.addr, h.clean_pos, h.clean_le, h.count_le⟩
  | setLimit limit =>
    simp only [Call.run, Option.some.injEq] at hrun
    rw [← hrun]
    have h1 := h.clean_le
    have h2 := h.count_le
    exact {
      wf := ⟨h.wf.linked, h.wf.count_eq⟩
      clean_pos := h.clean_pos
      clean_le := by simp only [SetLimit]; split <;> omega
      count_le := by simp only [SetLimit]; split <;> omega }

theorem Reachable.inv {c : CLRUCache K V} (h : Reachable c) : Inv c := by
  induction h with
  | construct limit clean_size expire_time c h => exact Inv.construct h
  | call c c1 op _ hrun ih => exact ih.call op hrun

/-! ## Capacity step -/

theorem makeRoom_full_sweep {c : CLRUCache K V} (hfull : c.m_cache_count ≥ c.m_limit)
    {c2 : CLRUCache K V} (hrun : CleanCapacity c = some c2) :
    makeRoom c false = some (none, c2) := by
  simp [makeRoom, hfull, hrun]

theorem makeRoom_full_single {c : CLRUCache K V} (hfull : c.m_cache_count ≥ c.m_limit)
    {r : Bool × Option V × CLRUCache K V} (hrun : RemoveLast c true = some r) :
    makeRoom c true = some (r.2.1, r.2.2) := by
  simp [makeRoom, hfull, hrun]

theorem Add_absent_eq {c : CLRUCache K V} {key : K} (hk : indexFind c.m_indexs key = none)
    {removed : Bool} {out : Option V} {c1 : CLRUCache K V}
    (hroom : makeRoom c removed = some (out, c1)) (value : V) :
    Add c key value removed = some (out, insertFront c1 key value) := by
  simp [Add, hk, hroom]

theorem filter_live_eq_self {vals : List (Node K V)}
    (hlive : ∀ n ∈ vals, n.data._del = false) :
    vals.filter (fun n => !n.data._del) = vals := by
  rw [List.filter_eq_self]
  intro n hn
  simp [hlive n hn]

/-! ## Order-only view of eviction -/

theorem valuesAssign_eq_map_key {vals : List (Node K V)} {idx : List (K × Nat)}
    (h : Linked vals idx) {key : K} {it : Nat} (hk : indexFind idx key = some it) (value : V) :
    valuesAssign vals it value
      = vals.map (fun n => if n.key = key then { n with data := ⟨value, false⟩ } else n) := by
  obtain ⟨m, hm, hmk, hma, _⟩ := h.find_deref hk
  unfold valuesAssign
  apply List.map_congr_left
  intro n hn
  have hiff : n.addr = it ↔ n.key = key :=
    ⟨fun e => by rw [node_eq_of_addr h.addr_nodup hn hm (e.trans hma.symm)]; exact hmk,
     fun e => by rw [node_eq_of_key h.key_nodup hn hm (e.trans hmk.symm)]; exact hma⟩
  by_cases hc : n.addr = it
  · simp [hc, hiff.mp hc]
  · have : ¬ n.key = key := fun e => hc (hiff.mpr e)
    simp [hc, this]

/-- The truncation looks at the order of the cells only. -/
theorem CleanByLRU_keys_congr {c d : CLRUCache K V} (hc : Wf c) (hd : Wf d)
    (hpos : 0 ≤ c.m_clean_size) (hkeys : d.m_values.map Node.key = c.m_values.map Node.key)
    (hclean : d.m_clean_size = c.m_clean_size) :
    (CleanByLRU d).map (fun s => s.m_values.map Node.key)
      = (CleanByLRU c).map (fun s => s.m_values.map Node.key) := by
  have hlen : d.m_values.length = c.m_values.length := by
    simpa using congrArg List.length hkeys
  have hcnt : d.m_cache_count = c.m_cache_count := by rw [hd.count_eq, hc.count_eq, hlen]
  obtain ⟨c1, h1, _, _, _, h5, h6⟩ := CleanByLRU_total hc hpos
  obtain ⟨d1, g1, _, _, _, g5, g6⟩ := CleanByLRU_total hd (by rw [hclean]; exact hpos)
  rw [h1, g1]
  simp only [Option.map_some', Option.some.injEq]
  by_cases hlt : c.m_cache_count < c.m_clean_size
  · rw [h6 hlt, g6 (by rw [hcnt, hclean]; exact hlt)]; exact hkeys
  · rw [h5 (by omega), g5 (by rw [hcnt, hclean]; omega), List.map_take, List.map_take, hkeys,
      hlen, hclean]

/-- The removal at the tail looks at the order of the cells only. -/
theorem RemoveLast_keys_congr {c d : CLRUCache K V} (hc : Wf c) (hd : Wf d)
    (hkeys : d.m_values.map Node.key = c.m_values.map Node.key) (valueptr : Bool) :
    (RemoveLast d valueptr).map (fun r => r.2.2.m_values.map Node.key)
      = (RemoveLast c valueptr).map (fun r => r.2.2.m_values.map Node.key) := by
  have hlen : d.m_values.length = c.m_values.length := by
    simpa using congrArg List.length hkeys
  by_cases hne : c.m_values = []
  · have hde : d.m_values = [] := by
      rw [hne] at hlen; exact List.length_eq_zero.mp hlen
    simp [RemoveLast, hne, hde]
  · have hdne : d.m_values ≠ [] := by
      intro e; rw [e] at hlen; exact hne (List.length_eq_zero.mp hlen.symm)
    obtain ⟨n, _, _, h1, h2⟩ := RemoveLast_nonempty hc hne valueptr
    obtain ⟨m, _, _, g1, g2⟩ := RemoveLast_nonempty hd hdne valueptr
    rw [h1, g1]
    simp only [Option.map_some', Option.some.injEq]
    rw [h2, g2, List.dropLast_eq_take, List.dropLast_eq_take, List.map_take, List.map_take,
      hkeys, hlen]

/-! ## Lookup without promotion -/

theorem Peek_present {c : CLRUCache K V} (h : Wf c) {key : K} {it : Nat}
    (hk : indexFind c.m_indexs key = some it) :
    ∃ n, n ∈ c.m_values ∧ n.key = key ∧ n.addr = it ∧
      Peek c key = some (some n.data.value, c) := by
  obtain ⟨n, hn, hnk, hna, hd⟩ := h.linked.find_deref hk
  exact ⟨n, hn, hnk, hna, by simp [Peek, hk, hd]⟩

theorem Peek_absent {c : CLRUCache K V} {key : K} (hk : indexFind c.m_indexs key = none) :
    Peek c key = some (none, c) := by
  simp [Peek, hk]

/-! ## Removal and marking by key -/

theorem eraseNode_eq_filter {c : CLRUCache K V} (h : Wf c) {n : Node K V}
    (hn : n ∈ c.m_values) :
    eraseNode c n = { c with
      m_indexs := c.m_indexs.filter (fun e => decide (e.1 ≠ n.key))
      m_values := c.m_values.filter (fun m => decide (m.key ≠ n.key))
      m_cache_count := c.m_cache_count - 1 } := by
  simp only [eraseNode, valuesErase_eq_filter_key h.linked hn, indexErase]

theorem eraseNode_absent {c : CLRUCache K V} (h : Wf c) {n : Node K V}
    (hn : n ∈ c.m_values) : indexFind (eraseNode c n).m_indexs n.key = none := by
  rw [(h.wf_eraseNode hn).linked.find_none_iff]
  intro hm
  obtain ⟨m, hm1, hmk⟩ := List.mem_map.mp hm
  have hv : (eraseNode c n).m_values = c.m_values.filter (fun m => decide (m.key ≠ n.key)) := by
    simp only [eraseNode, valuesErase_eq_filter_key h.linked hn]
  rw [hv] at hm1
  have := (List.mem_filter.mp hm1).2
  simp [hmk] at this

theorem Remove_absent {c : CLRUCache K V} {key : K} (hk : indexFind c.m_indexs key = none)
    (valueptr : Bool) : Remove c key valueptr = some (none, c) := by
  simp [Remove, hk]

theorem valuesMark_eq_map_key {vals : List (Node K V)} {idx : List (K × Nat)}
    (h : Linked vals idx) {n : Node K V} (hn : n ∈ vals) :
    valuesMark vals n.addr
      = vals.map (fun m =>
          if m.key = n.key then { m with data := { m.data with _del := true } } else m) := by
  unfold valuesMark
  apply List.map_congr_left
  intro m hm
  have hiff : m.addr = n.addr ↔ m.key = n.key :=
    ⟨fun e => congrArg Node.key (node_eq_of_addr h.addr_nodup hm hn e),
     fun e => congrArg Node.addr (node_eq_of_key h.key_nodup hm hn e)⟩
  by_cases hc : m.addr = n.addr
  · simp [hc, hiff.mp hc]
  · have : ¬ m.key = n.key := fun e => hc (hiff.mpr e)
    simp [hc, this]

/-! ## Counting the marked cells -/

theorem length_filter_live (vals : List (Node K V)) :
    ((vals.filter (fun n => !n.data._del)).length : Int)
      = vals.length - vals.countP (fun n => n.data._del) := by
  induction vals with
  | nil => simp
  | cons n rest ih =>
    by_cases hd : n.data._del = true
    · simp only [List.filter_cons, hd, Bool.not_true, List.countP_cons_of_pos,
        List.length_cons]
      simp only [Bool.false_eq_true, if_false]
      push_cast
      omega
    · have hd2 : n.data._del = false := by simpa using hd
      simp only [List.filter_cons, hd2, Bool.not_false, if_true, List.length_cons]
      rw [List.countP_cons_of_neg _ _ (by simp [hd2])]
      push_cast
      omega

/-! ## Statistics -/

/-- `Add` leaves the hit and expiry statistics alone. -/
theorem Add_stats {c : CLRUCache K V} (h : Inv c) (key : K) (value : V) (removed : Bool) :
    ∃ r, Add c key value removed = some r ∧ Inv r.2 ∧
      r.2.m_hit_count = c.m_hit_count ∧ r.2.m_expire_count = c.m_expire_count := by
  rcases hk : indexFind c.m_indexs key with _ | it
  · obtain ⟨out, c1, _, hrun, _, hf, _, _, hinv⟩ := Add_absent h hk value removed
    exact ⟨_, hrun, hinv, hf.2.2.1, hf.2.2.2.2⟩
  · obtain ⟨hrun, hinv⟩ := Add_present h hk value removed
    exact ⟨_, hrun, hinv, rfl, rfl⟩

theorem AddVec_stats (kv_vec : List (K × V)) :
    ∀ {c : CLRUCache K V}, Inv c → ∃ c1, AddVec c kv_vec = some c1 ∧
      c1.m_hit_count = c.m_hit_count ∧ c1.m_expire_count = c.m_expire_count := by
  induction kv_vec with
  | nil => intro c _; exact ⟨c, rfl, rfl, rfl⟩
  | cons kv rest ih =>
    intro c h
    obtain ⟨r, hrun, hinv, e1, e2⟩ := Add_stats h kv.1 kv.2 false
    obtain ⟨c1, h1, g1, g2⟩ := ih hinv
    exact ⟨c1, by simp only [AddVec, hrun]; exact h1, g1.trans e1, g2.trans e2⟩

/-- No public call raises the hit or the expiry statistics: a call keeps both or zeroes both. -/
theorem Call.run_stats {c c1 : CLRUCache K V} (h : Inv c) (op : Call K V)
    (hrun : Call.run c op = some c1) :
    (c1.m_hit_count = c.m_hit_count ∧ c1.m_expire_count = c.m_expire_count) ∨
    (c1.m_hit_count = 0 ∧ c1.m_expire_count = 0) := by
  cases op with
  | add key value removed =>
    obtain ⟨r, h1, _, e1, e2⟩ := Add_stats h key value removed
    simp only [Call.run, h1, Option.map_some', Option.some.injEq] at hrun
    rw [← hrun]; exact Or.inl ⟨e1, e2⟩
  | addVec kv_vec =>
    obtain ⟨c2, h1, e1, e2⟩ := AddVec_stats kv_vec h
    simp only [Call.run, h1, Option.some.injEq] at hrun
    rw [← hrun]; exact Or.inl ⟨e1, e2⟩
  | remove key valueptr =>
    rcases Remove_spec h.wf key valueptr with ⟨_, h1⟩ | ⟨n, _, _, h1⟩
    · simp only [Call.run, h1, Option.map_some', Option.some.injEq] at hrun
      rw [← hrun]; exact Or.inl ⟨rfl, rfl⟩
    · simp only [Call.run, h1, Option.map_some', Option.some.injEq] at hrun
      rw [← hrun]; exact Or.inl ⟨rfl, rfl⟩
  | removeFirst valueptr =>
    rcases RemoveFirst_spec h.wf valueptr with ⟨_, h1⟩ | ⟨n, _, _, h1⟩
    · simp only [Call.run, h1, Option.map_some', Option.some.injEq] at hrun
      rw [← hrun]; exact Or.inl ⟨rfl, rfl⟩
    · simp only [Call.run, h1, Option.map_some', Option.some.injEq] at hrun
      rw [← hrun]; exact Or.inl ⟨rfl, rfl⟩
  | removeLast valueptr =>
    by_cases hne : c.m_values = []
    · simp [Call.run, RemoveLast, hne] at hrun
    · obtain ⟨n, _, _, h1, _⟩ := RemoveLast_nonempty h.wf hne valueptr
      simp only [Call.run, h1, Option.map_some', Option.some.injEq] at hrun
      rw [← hrun]; exact Or.inl ⟨rfl, rfl⟩
  | clear =>
    simp only [Call.run, Option.some.injEq] at hrun
    rw [← hrun]; exact Or.inr ⟨rfl, rfl⟩
  | cleanCapacity =>
    obtain ⟨c2, c3, _, _, h1, _, _, _, hf3, _⟩ :=
      CleanCapacity_spec h.wf (le_of_lt h.clean_pos)
    simp only [Call.run, h1, Option.some.injEq] at hrun
    rw [← hrun]; exact Or.inl ⟨hf3.2.2.1, hf3.2.2.2.2⟩
  | cleanByLRU =>
    obtain ⟨c2, h1, _, hf, _⟩ := CleanByLRU_total h.wf (le_of_lt h.clean_pos)
    simp only [Call.run, h1, Option.some.injEq] at hrun
    rw [← hrun]; exact Or.inl ⟨hf.2.2.1, hf.2.2.2.2⟩
  | cleanNeedDel =>
    obtain ⟨c2, h1, _, hf, _⟩ := CleanNeedDel_spec h.wf
    simp only [Call.run, h1, Option.some.injEq] at hrun
    rw [← hrun]; exact Or.inl ⟨hf.2.2.1, hf.2.2.2.2⟩
  | find key =>
    rcases hk : indexFind c.m_indexs key with _ | it
    · simp only [Call.run, Find_absent hk, Option.map_some', Option.some.injEq] at hrun
      rw [← hrun]; exact Or.inl ⟨rfl, rfl⟩
    · obtain ⟨n, _, _, _, h1⟩ := Find_present h.wf hk
      simp only [Call.run, h1, Option.map_some', Option.some.injEq] at hrun
      rw [← hrun]; exact Or.inl ⟨rfl, rfl⟩
  | peek key =>
    rcases hp : Peek c key with _ | r
    · simp [Call.run, hp] at hrun
    · simp only [Call.run, hp, Option.map_some', Option.some.injEq] at hrun
      rw [← hrun, Peek_state hp]; exact Or.inl ⟨rfl, rfl⟩
  | front =>
    rcases hp : Front c with _ | r
    · simp [Call.run, hp] at hrun
    · simp only [Call.run, hp, Option.map_some', Option.some.injEq] at hrun
      rw [← hrun, Front_state hp]; exact Or.inl ⟨rfl, rfl⟩
  | markDelete key =>
    rcases MarkDelete_spec h.wf key with ⟨_, h1⟩ | ⟨n, _, _, h1⟩
    · simp only [Call.run, h1, Option.some.injEq] at hrun
      rw [← hrun]; exact Or.inl ⟨rfl, rfl⟩
    · simp only [Call.run, h1, Option.some.injEq] at hrun
      rw [← hrun]; exact Or.inl ⟨rfl, rfl⟩
  | setLimit limit =>
    simp only [Call.run, Option.some.injEq] at hrun
    rw [← hrun]; exact Or.inl ⟨rfl, rfl⟩

theorem Reachable.stats_zero {c : CLRUCache K V} (h : Reachable c) :
    c.m_hit_count = 0 ∧ c.m_expire_count = 0 := by
  induction h with
  | construct limit clean_size expire_time c h =>
    unfold CLRUCache.new at h
    split at h
    · cases h; exact ⟨rfl, rfl⟩
    · cases h
  | call c c1 op hc hrun ih =>
    rcases Call.run_stats hc.inv op hrun with ⟨e1, e2⟩ | hz
    · exact ⟨e1.trans ih.1, e2.trans ih.2⟩
    · exact hz

/-! ## Turns of the truncation loop -/

/-- The state before the last of `num + 1` turns of the loop is the one after `num` turns. -/
theorem removeLastLoop_succ (num : Nat) :
    ∀ c : CLRUCache K V, removeLastLoop (num + 1) c
      = (removeLastLoop num c).bind (fun ci => (RemoveLast ci false).map (fun r => r.2.2)) := by
  induction num with
  | zero =>
    intro c
    simp only [removeLastLoop, Option.some_bind]
    cases RemoveLast c false <;> rfl
  | succ num ih =>
    intro c
    rw [removeLastLoop]
    cases hr : RemoveLast c false with
    | none => simp [removeLastLoop, hr]
    | some r =>
      simp only [ih r.2.2]
      conv_rhs => rw [removeLastLoop]
      simp only [hr]

/-- Each turn of the loop of `CleanByLRU` meets a non-empty list when enough cells are there. -/
theorem removeLastLoop_turn {c : CLRUCache K V} (h : Wf c) {total : Nat}
    (htotal : total ≤ c.m_values.length) {i : Nat} (hi : i < total) :
    ∃ ci last,
      removeLastLoop i c = some ci ∧ ci.m_values ≠ [] ∧
      ci.m_values.getLast? = some last ∧
      RemoveLast ci false = some (true, none, eraseNode ci last) ∧
      removeLastLoop (i + 1) c = some (eraseNode ci last) ∧
      (eraseNode ci last).m_cache_count = c.m_cache_count - (i + 1 : Nat) ∧
      0 ≤ (eraseNode ci last).m_cache_count := by
  obtain ⟨ci, h1, hw, _, hv⟩ := removeLastLoop_spec i h (by omega : i ≤ c.m_values.length)
  have hlen : ci.m_values.length = c.m_values.length - i := by
    rw [hv, List.length_take]; omega
  have hne : ci.m_values ≠ [] := by
    intro e; rw [e] at hlen; simp at hlen; omega
  obtain ⟨last, hmem, hlast, hrun, hvals⟩ := RemoveLast_nonempty hw hne false
  have hrun2 : RemoveLast ci false = some (true, none, eraseNode ci last) := by
    simpa using hrun
  have hcnt := hw.count_eq
  have hc := h.count_eq
  refine ⟨ci, last, h1, hne, hlast, hrun2, ?_, ?_, ?_⟩
  · rw [removeLastLoop_succ, h1]
    simp [hrun2]
  · simp only [eraseNode]; push_cast; omega
  · simp only [eraseNode]; omega

/-! ## Sampling -/

theorem elemInsert_perm {m : List (K × V)} {key : K} (value : V)
    (hk : key ∉ m.map Prod.fst) : (elemInsert m key value).Perm ((key, value) :: m) := by
  induction m with
  | nil => exact List.Perm.refl _
  | cons e rest ih =>
    have hne : key ≠ e.1 := fun h => hk (by simp [h])
    have hrest : key ∉ rest.map Prod.fst := fun h => hk (by simp at h ⊢; exact Or.inr h)
    unfold elemInsert
    by_cases hlt : key < e.1
    · simp [hlt]
    · simp only [hlt, hne, if_false]
      exact ((ih hrest).cons e).trans (List.Perm.swap _ _ _)

/-- Inserting cells with fresh, distinct keys adds exactly their pairs. -/
theorem foldl_elemInsert_perm (drawn : List (Node K V)) :
    ∀ container : List (K × V),
      (drawn.map Node.key ++ container.map Prod.fst).Nodup →
      (drawn.foldl (fun m n => elemInsert m n.key n.data.value) container).Perm
        (drawn.map (fun n => (n.key, n.data.value)) ++ container) := by
  induction drawn with
  | nil => intro container _; exact List.Perm.refl _
  | cons n rest ih =>
    intro container hnd
    rw [List.map_cons, List.cons_append, List.nodup_cons] at hnd
    have hk : n.key ∉ container.map Prod.fst := fun hm =>
      hnd.1 (List.mem_append_right _ hm)
    have hp := elemInsert_perm n.data.value hk
    have hnd2 : (rest.map Node.key
        ++ (elemInsert container n.key n.data.value).map Prod.fst).Nodup := by
      have hperm : (rest.map Node.key
          ++ (elemInsert container n.key n.data.value).map Prod.fst).Perm
          (n.key :: (rest.map Node.key ++ container.map Prod.fst)) := by
        have h1 := (hp.map Prod.fst).append_left (rest.map Node.key)
        simp only [List.map_cons] at h1
        exact h1.trans List.perm_middle
      rw [hperm.nodup_iff, List.nodup_cons]
      exact hnd
    simp only [List.foldl_cons, List.map_cons, List.cons_append]
    exact (ih _ hnd2).trans ((hp.append_left _).trans List.perm_middle)

/-! ## The miss counter as an int -/

theorem intIncrement_range (x : Int) :
    -2147483648 ≤ intIncrement x ∧ intIncrement x ≤ 2147483647 := by
  unfold intIncrement
  omega

theorem intIncrement_eq {x : Int} (hlo : -2147483648 ≤ x) (hhi : x < 2147483647) :
    intIncrement x = x + 1 := by
  unfold intIncrement
  omega

/-- `Add` leaves the miss counter alone. -/
theorem Add_miss {c : CLRUCache K V} (h : Inv c) (key : K) (value : V) (removed : Bool) :
    ∃ r, Add c key value removed = some r ∧ Inv r.2 ∧ r.2.m_miss_count = c.m_miss_count := by
  rcases hk : indexFind c.m_indexs key with _ | it
  · obtain ⟨out, c1, _, hrun, _, hf, _, _, hinv⟩ := Add_absent h hk value removed
    exact ⟨_, hrun, hinv, hf.2.2.2.1⟩
  · obtain ⟨hrun, hinv⟩ := Add_present h hk value removed
    exact ⟨_, hrun, hinv, rfl⟩

theorem AddVec_miss (kv_vec : List (K × V)) :
    ∀ {c : CLRUCache K V}, Inv c → ∃ c1, AddVec c kv_vec = some c1 ∧
      c1.m_miss_count = c.m_miss_count := by
  induction kv_vec with
  | nil => intro c _; exact ⟨c, rfl, rfl⟩
  | cons kv rest ih =>
    intro c h
    obtain ⟨r, hrun, hinv, e1⟩ := Add_miss h kv.1 kv.2 false
    obtain ⟨c1, h1, g1⟩ := ih hinv
    exact ⟨c1, by simp only [AddVec, hrun]; exact h1, g1.trans e1⟩

/-- A public call keeps the miss counter, zeroes it, or increments it as an `int`. -/
theorem Call.run_miss {c c1 : CLRUCache K V} (h : Inv c) (op : Call K V)
    (hrun : Call.run c op = some c1) :
    c1.m_miss_count = c.m_miss_count ∨ c1.m_miss_count = 0 ∨
      c1.m_miss_count = intIncrement c.m_miss_count := by
  cases op with
  | add key value removed =>
    obtain ⟨r, h1, _, e1⟩ := Add_miss h key value removed
    simp only [Call.run, h1, Option.map_some', Option.some.injEq] at hrun
    rw [← hrun]; exact Or.inl e1
  | addVec kv_vec =>
    obtain ⟨c2, h1, e1⟩ := AddVec_miss kv_vec h
    simp only [Call.run, h1, Option.some.injEq] at hrun
    rw [← hrun]; exact Or.inl e1
  | remove key valueptr =>
    rcases Remove_spec h.wf key valueptr with ⟨_, h1⟩ | ⟨n, _, _, h1⟩
    · simp only [Call.run, h1, Option.map_some', Option.some.injEq] at hrun
      rw [← hrun]; exact Or.inl rfl
    · simp only [Call.run, h1, Option.map_some', Option.some.injEq] at hrun
      rw [← hrun]; exact Or.inl rfl
  | removeFirst valueptr =>
    rcases RemoveFirst_spec h.wf valueptr with ⟨_, h1⟩ | ⟨n, _, _, h1⟩
    · simp only [Call.run, h1, Option.map_some', Option.some.injEq] at hrun
      rw [← hrun]; exact Or.inl rfl
    · simp only [Call.run, h1, Option.map_some', Option.some.injEq] at hrun
      rw [← hrun]; exact Or.inl rfl
  | removeLast valueptr =>
    by_cases hne : c.m_values = []
    · simp [Call.run, RemoveLast, hne] at hrun
    · obtain ⟨n, _, _, h1, _⟩ := RemoveLast_nonempty h.wf hne valueptr
      simp only [Call.run, h1, Option.map_some', Option.some.injEq] at hrun
      rw [← hrun]; exact Or.inl rfl
  | clear =>
    simp only [Call.run, Option.some.injEq] at hrun
    rw [← hrun]; exact Or.inr (Or.inl rfl)
  | cleanCapacity =>
    obtain ⟨c2, c3, _, _, h1, _, _, _, hf3, _⟩ :=
      CleanCapacity_spec h.wf (le_of_lt h.clean_pos)
    simp only [Call.run, h1, Option.some.injEq] at hrun
    rw [← hrun]; exact Or.inl hf3.2.2.2.1
  | cleanByLRU =>
    obtain ⟨c2, h1, _, hf, _⟩ := CleanByLRU_total h.wf (le_of_lt h.clean_pos)
    simp only [Call.run, h1, Option.some.injEq] at hrun
    rw [← hrun]; exact Or.inl hf.2.2.2.1
  | cleanNeedDel =>
    obtain ⟨c2, h1, _, hf, _⟩ := CleanNeedDel_spec h.wf
    simp only [Call.run, h1, Option.some.injEq] at hrun
    rw [← hrun]; exact Or.inl hf.2.2.2.1
  | find key =>
    rcases hk : indexFind c.m_indexs key with _ | it
    · simp only [Call.run, Find_absent hk, Option.map_some', Option.some.injEq] at hrun
      rw [← hrun]; exact Or.inr (Or.inr rfl)
    · obtain ⟨n, _, _, _, h1⟩ := Find_present h.wf hk
      simp only [Call.run, h1, Option.map_some', Option.some.injEq] at hrun
      rw [← hrun]; exact Or.inl rfl
  | peek key =>
    rcases hp : Peek c key with _ | r
    · simp [Call.run, hp] at hrun
    · simp only [Call.run, hp, Option.map_some', Option.some.injEq] at hrun
      rw [← hrun, Peek_state hp]; exact Or.inl rfl
  | front =>
    rcases hp : Front c with _ | r
    · simp [Call.run, hp] at hrun
    · simp only [Call.run, hp, Option.map_some', Option.some.injEq] at hrun
      rw [← hrun, Front_state hp]; exact Or.inl rfl
  | markDelete key =>
    rcases MarkDelete_spec h.wf key with ⟨_, h1⟩ | ⟨n, _, _, h1⟩
    · simp only [Call.run, h1, Option.some.injEq] at hrun
      rw [← hrun]; exact Or.inl rfl
    · simp only [Call.run, h1, Option.some.injEq] at hrun
      rw [← hrun]; exact Or.inl rfl
  | setLimit limit =>
    simp only [Call.run, Option.some.injEq] at hrun
    rw [← hrun]; exact Or.inl rfl

/-- The miss counter of a reachable state is a value of an `int`. -/
theorem Reachable.miss_range {c : CLRUCache K V} (h : Reachable c) :
    -2147483648 ≤ c.m_miss_count ∧ c.m_miss_count ≤ 2147483647 := by
  induction h with
  | construct limit clean_size expire_time c h =>
    unfold CLRUCache.new at h
    split at h
    · cases h; exact ⟨by simp, by simp⟩
    · cases h
  | call c c1 op hc hrun ih =>
    rcases Call.run_miss hc.inv op hrun with e | e | e
    · rw [e]; exact ih
    · rw [e]; exact ⟨by decide, by decide⟩
    · rw [e]; exact intIncrement_range _

/-- Every count of misses up to `INT_MAX` is reached by that many missing `Find` calls. -/
theorem missState_reachable (n : Nat) (hn : n ≤ 2147483647) : Reachable (missState n) := by
  induction n with
  | zero => exact Reachable.construct 5 2 (-1) _ (by decide)
  | succ n ih =>
    refine Reachable.call (missState n) _ (.find 0) (ih (by omega)) ?_
    have hinc : intIncrement (n : Int) = ((n + 1 : Nat) : Int) := by
      rw [intIncrement_eq (by omega) (by omega)]; push_cast; rfl
    simp only [Call.run, Find, indexFind, missState, List.find?_nil, Option.map_none',
      Option.map_some', hinc]

end Lemmas

section Claims

variable {K V : Type} [LinearOrder K]

/-! ## Claims -/

theorem demoEmpty_reachable : Reachable demoEmpty :=
  Reachable.construct 5 2 (-1) demoEmpty (by decide)

theorem demoFull_reachable : Reachable demoFull :=
  Reachable.call demoEmpty demoFull (.addVec [(1, 10), (2, 20), (3, 30), (4, 40), (5, 50)])
    demoEmpty_reachable (by decide)

/-- C1: in every reachable state `m_cache_count` is the number of cells of `m_values` and of
`m_indexs`, the keys of the sequence are pairwise distinct, and the index holds, for each key,
exactly the iterator of the one live cell that carries this key. -/
theorem C1_count_index_sequence_agree (c : CLRUCache K V) (h : Reachable c) :
    c.m_cache_count = c.m_values.length ∧
    c.m_cache_count = c.m_indexs.length ∧
    (c.m_values.map Node.key).Nodup ∧
    (c.m_indexs.map Prod.fst).Nodup ∧
    (∀ key it, (key, it) ∈ c.m_indexs ↔ ∃ n ∈ c.m_values, n.key = key ∧ n.addr = it) ∧
    (∀ key it, indexFind c.m_indexs key = some it ↔
      ∃ n ∈ c.m_values, n.key = key ∧ n.addr = it) ∧
    (∀ n ∈ c.m_values, valuesDeref c.m_values n.addr = some n) := by
  have hi := h.inv
  refine ⟨hi.wf.count_eq, ?_, hi.wf.linked.key_nodup, hi.wf.linked.index_nodup,
    fun key it => hi.wf.linked.mem_index, fun key it => hi.wf.linked.find_iff,
    fun n hn => valuesDeref_of_mem hi.wf.linked.addr_nodup hn⟩
  rw [hi.wf.count_eq, hi.wf.linked.length_eq]

theorem C1_witness :
    Reachable demoFull ∧
    demoFull.m_cache_count = demoFull.m_values.length ∧
    demoFull.m_cache_count = demoFull.m_indexs.length ∧
    (demoFull.m_values.map Node.key).Nodup ∧
    (demoFull.m_indexs.map Prod.fst).Nodup ∧
    (∀ key it, (key, it) ∈ demoFull.m_indexs ↔
      ∃ n ∈ demoFull.m_values, n.key = key ∧ n.addr = it) ∧
    (∀ key it, indexFind demoFull.m_indexs key = some it ↔
      ∃ n ∈ demoFull.m_values, n.key = key ∧ n.addr = it) ∧
    (∀ n ∈ demoFull.m_values, valuesDeref demoFull.m_values n.addr = some n) :=
  ⟨demoFull_reachable, C1_count_index_sequence_agree demoFull demoFull_reachable⟩

/-- C2: in every reachable state `Size() <= GetLimit()`, and every `Add` from a reachable state
returns and leaves a state with `Size() <= GetLimit()`. -/
theorem C2_size_le_limit (c : CLRUCache K V) (h : Reachable c) :
    Size c ≤ GetLimit c ∧
    ∀ (key : K) (value : V) (removed : Bool),
      ∃ r, Add c key value removed = some r ∧ Size r.2 ≤ GetLimit r.2 := by
  refine ⟨h.inv.count_le, fun key value removed => ?_⟩
  obtain ⟨r, h1, h2⟩ := Add_inv h.inv key value removed
  exact ⟨r, h1, h2.count_le⟩

theorem C2_witness :
    Reachable demoFull ∧ Size demoFull ≤ GetLimit demoFull ∧
    ∀ (key : Nat) (value : Nat) (removed : Bool),
      ∃ r, Add demoFull key value removed = some r ∧ Size r.2 ≤ GetLimit r.2 :=
  ⟨demoFull_reachable, C2_size_le_limit demoFull demoFull_reachable⟩

/-- C3: in a reachable state with `m_cache_count == m_limit` and no marked record, `Add` of an
absent key without `removed` drops exactly the last `m_clean_size` cells of the sequence, keeps
the other cells in order and puts the new key in front; the size becomes
`m_limit - m_clean_size + 1`. -/
theorem C3_add_at_capacity_drops_tail (c : CLRUCache K V) (h : Reachable c)
    (hfull : c.m_cache_count = c.m_limit)
    (hlive : ∀ n ∈ c.m_values, n.data._del = false)
    (key : K) (habs : indexFind c.m_indexs key = none) (value : V) :
    ∃ c2 kept dropped it,
      Add c key value false = some (none, c2) ∧
      c.m_values = kept ++ dropped ∧
      (dropped.length : Int) = c.m_clean_size ∧
      c2.m_values = ⟨it, key, ⟨value, false⟩⟩ :: kept ∧
      (c2.m_indexs.map Prod.fst).Perm (key :: kept.map Node.key) ∧
      Size c2 = c.m_limit - c.m_clean_size + 1 ∧
      Frame c c2 := by
  have hi := h.inv
  obtain ⟨c1, c2, _, _, hrun, hw1, hw2, hf1, hf2, hv1, _, htake, _⟩ :=
    CleanCapacity_spec hi.wf (le_of_lt hi.clean_pos)
  rw [filter_live_eq_self hlive] at hv1
  have hcnt1 : c1.m_cache_count = c.m_cache_count := by
    rw [hw1.count_eq, hi.wf.count_eq, hv1]
  have hcl1 : c1.m_clean_size = c.m_clean_size := hf1.2.1
  have hcl := hi.clean_le
  have hcp := hi.clean_pos
  have hc := hi.wf.count_eq
  have hv2 := htake (by omega)
  rw [hv1, hcl1] at hv2
  have hadd := Add_absent_eq habs (makeRoom_full_sweep (le_of_eq hfull.symm) hrun) value
  have hk2 : indexFind c2.m_indexs key = none := by
    apply absent_of_sublist hi.wf hw2 _ habs
    rw [hv2]; exact List.take_sublist _ _
  have hw3 := insertFront_wf hw2 hk2 value
  refine ⟨insertFront c2 key value, c.m_values.take (c.m_values.length - c.m_clean_size.toNat),
    c.m_values.drop (c.m_values.length - c.m_clean_size.toNat), freshAddr c2.m_values,
    hadd, (List.take_append_drop _ _).symm, ?_, ?_, ?_, ?_, hf2⟩
  · rw [List.length_drop]; omega
  · simp only [insertFront, hv2]
  · have := hw3.linked.index_keys_perm
    simpa only [insertFront, List.map_cons, hv2] using this
  · have := hw2.count_eq
    rw [hv2, List.length_take] at this
    simp only [Size, insertFront]
    omega

theorem C3_witness :
    Reachable demoFull ∧
    (∃ c2 kept dropped it,
      Add demoFull 6 60 false = some (none, c2) ∧
      demoFull.m_values = kept ++ dropped ∧
      (dropped.length : Int) = demoFull.m_clean_size ∧
      c2.m_values = ⟨it, 6, ⟨60, false⟩⟩ :: kept ∧
      (c2.m_indexs.map Prod.fst).Perm (6 :: kept.map Node.key) ∧
      Size c2 = demoFull.m_limit - demoFull.m_clean_size + 1 ∧
      Frame demoFull c2) ∧
    (CLRUCache.new 5 2 (-1)).bind
        (fun c => AddVec c [(1, 10), (2, 20), (3, 30), (4, 40), (5, 50), (6, 60)])
      = some ⟨[⟨6, 6, ⟨60, false⟩⟩, ⟨5, 5, ⟨50, false⟩⟩, ⟨4, 4, ⟨40, false⟩⟩,
          ⟨3, 3, ⟨30, false⟩⟩], [(3, 3), (4, 4), (5, 5), (6, 6)], 5, 2, 4, 0, 0, 0⟩ :=
  ⟨demoFull_reachable,
    C3_add_at_capacity_drops_tail demoFull demoFull_reachable (by decide) (by decide) 6
      (by decide) 60,
    by decide⟩

/-- C4: `Add` of a key that is already present, with or without `removed` and whatever the
fill level, stores the new value in the key's record and clears its mark, and changes nothing
else: every cell stays at its position, the index, the counter, the limits and the statistics
are the same, nothing is evicted and nothing is stored through `removed`.  So an eviction that
follows (batch truncation or single removal at the tail) removes the same keys as it would
have removed before the call. -/
theorem C4_add_existing_in_place (c : CLRUCache K V) (h : Reachable c) (key : K) (it : Nat)
    (hk : indexFind c.m_indexs key = some it) (v2 : V) (removed : Bool) :
    ∃ c2,
      Add c key v2 removed = some (none, c2) ∧
      c2 = { c with
        m_values := List.map
          (fun n => if n.key = key then { n with data := ⟨v2, false⟩ } else n) c.m_values } ∧
      c2.m_values.map Node.key = c.m_values.map Node.key ∧
      c2.m_values.map Node.addr = c.m_values.map Node.addr ∧
      Size c2 = Size c ∧
      (CleanByLRU c2).map (fun s => s.m_values.map Node.key)
        = (CleanByLRU c).map (fun s => s.m_values.map Node.key) ∧
      ∀ valueptr, (RemoveLast c2 valueptr).map (fun r => r.2.2.m_values.map Node.key)
        = (RemoveLast c valueptr).map (fun r => r.2.2.m_values.map Node.key) := by
  have hi := h.inv
  obtain ⟨hrun, hinv⟩ := Add_present hi hk v2 removed
  have hkeys := valuesAssign_map_key c.m_values it v2
  have haddr := valuesAssign_map_addr c.m_values it v2
  refine ⟨_, hrun, ?_, hkeys, haddr, rfl, ?_, fun valueptr => ?_⟩
  · rw [valuesAssign_eq_map_key hi.wf.linked hk]
  · exact CleanByLRU_keys_congr hi.wf hinv.wf (le_of_lt hi.clean_pos) hkeys rfl
  · exact RemoveLast_keys_congr hi.wf hinv.wf hkeys valueptr

theorem C4_witness :
    Reachable demoFull ∧
    indexFind demoFull.m_indexs 1 = some 1 ∧
    (∃ c2,
      Add demoFull 1 11 false = some (none, c2) ∧
      c2 = { demoFull with
        m_values := List.map
          (fun n => if n.key = 1 then { n with data := ⟨11, false⟩ } else n)
          demoFull.m_values } ∧
      c2.m_values.map Node.key = demoFull.m_values.map Node.key ∧
      c2.m_values.map Node.addr = demoFull.m_values.map Node.addr ∧
      Size c2 = Size demoFull ∧
      (CleanByLRU c2).map (fun s => s.m_values.map Node.key)
        = (CleanByLRU demoFull).map (fun s => s.m_values.map Node.key) ∧
      ∀ valueptr, (RemoveLast c2 valueptr).map (fun r => r.2.2.m_values.map Node.key)
        = (RemoveLast demoFull valueptr).map (fun r => r.2.2.m_values.map Node.key)) ∧
    ((Add demoFull 1 11 false).bind (fun r => Add r.2 6 60 false)).map
        (fun r => r.2.m_values.map Node.key) = some [6, 5, 4, 3] :=
  ⟨demoFull_reachable, by decide,
    C4_add_existing_in_place demoFull demoFull_reachable 1 1 (by decide) 11 false, by decide⟩

/-- C5: in a reachable state with `m_cache_count >= m_limit`, a key whose record is marked, at
whatever position of the sequence, is in neither container after `Add` of an absent key
without `removed`. -/
theorem C5_marked_key_swept (c : CLRUCache K V) (h : Reachable c)
    (hfull : c.m_cache_count ≥ c.m_limit)
    (n : Node K V) (hn : n ∈ c.m_values) (hdel : n.data._del = true)
    (key : K) (habs : indexFind c.m_indexs key = none) (value : V) :
    ∃ c2,
      Add c key value false = some (none, c2) ∧
      indexFind c2.m_indexs n.key = none ∧
      n.key ∉ c2.m_indexs.map Prod.fst ∧
      n.key ∉ c2.m_values.map Node.key := by
  have hi := h.inv
  obtain ⟨c1, c2, _, _, hrun, hw1, hw2, _, hf2, hv1, _, htake, hskip⟩ :=
    CleanCapacity_spec hi.wf (le_of_lt hi.clean_pos)
  have hsub : c2.m_values.Sublist (c.m_values.filter (fun m => !m.data._del)) := by
    rw [← hv1]
    by_cases hge : c1.m_clean_size ≤ c1.m_cache_count
    · rw [htake hge]; exact List.take_sublist _ _
    · rw [hskip (by omega)]
  have hadd := Add_absent_eq habs (makeRoom_full_sweep hfull hrun) value
  have hk2 : indexFind c2.m_indexs key = none :=
    absent_of_sublist hi.wf hw2 (hsub.trans (List.filter_sublist _)) habs
  have hw3 := insertFront_wf hw2 hk2 value
  have hne : n.key ≠ key := by
    intro e
    have := hi.wf.linked.find_of_mem hn
    rw [e, habs] at this
    cases this
  have hnot : n.key ∉ (insertFront c2 key value).m_values.map Node.key := by
    simp only [insertFront, List.map_cons, List.mem_cons, not_or]
    refine ⟨hne, fun hm => ?_⟩
    obtain ⟨m, hm1, hmk⟩ := List.mem_map.mp hm
    have hm2 := List.mem_filter.mp (hsub.subset hm1)
    have hmn := node_eq_of_key hi.wf.linked.key_nodup hm2.1 hn hmk
    rw [hmn, hdel] at hm2
    simp at hm2
  have hfind := hw3.linked.find_none_iff.mpr hnot
  exact ⟨_, hadd, hfind, indexFind_none_iff.mp hfind, hnot⟩

theorem demoMarked_reachable : Reachable demoMarked :=
  Reachable.call _ demoMarked (.markDelete 3)
    (Reachable.call demoFull _ (.find 3) demoFull_reachable (by decide : _ = some
      ⟨[⟨3, 3, ⟨30, false⟩⟩, ⟨5, 5, ⟨50, false⟩⟩, ⟨4, 4, ⟨40, false⟩⟩, ⟨2, 2, ⟨20, false⟩⟩,
          ⟨1, 1, ⟨10, false⟩⟩],
        [(1, 1), (2, 2), (3, 3), (4, 4), (5, 5)], 5, 2, 5, 0, 0, 0⟩))
    (by decide)

theorem C5_witness :
    Reachable demoMarked ∧
    (∃ c2,
      Add demoMarked 6 60 false = some (none, c2) ∧
      indexFind c2.m_indexs 3 = none ∧
      3 ∉ c2.m_indexs.map Prod.fst ∧
      3 ∉ c2.m_values.map Node.key) ∧
    (Add demoMarked 6 60 false).map (fun r => r.2.m_values.map Node.key) = some [6, 5, 4] :=
  ⟨demoMarked_reachable,
    C5_marked_key_swept demoMarked demoMarked_reachable (by decide) ⟨3, 3, ⟨30, true⟩⟩
      (by decide) rfl 6 (by decide) 60,
    by decide⟩

/-- C6: `Find` of a present key returns the value stored under the key and moves the key's
cell to the front; the other cells keep their order, no cell is added, lost or altered, and
the index, the counter, the limits and the statistics stay as they were. -/
theorem C6_find_promotes (c : CLRUCache K V) (h : Reachable c) (key : K) (it : Nat)
    (hk : indexFind c.m_indexs key = some it) :
    ∃ n c2,
      n ∈ c.m_values ∧ n.key = key ∧
      Find c key = some (some n.data.value, c2) ∧
      c2 = { c with m_values := n :: c.m_values.filter (fun m => decide (m.key ≠ key)) } ∧
      c2.m_values.Perm c.m_values ∧
      c2.m_indexs = c.m_indexs ∧ Size c2 = Size c ∧ Frame c c2 := by
  have hi := h.inv
  obtain ⟨n, hn, hnk, _, hrun⟩ := Find_present hi.wf hk
  have hv : valuesSplice c.m_values n
      = n :: c.m_values.filter (fun m => decide (m.key ≠ key)) := by
    rw [← hnk]
    simp only [valuesSplice, valuesErase_eq_filter_key hi.wf.linked hn]
  refine ⟨n, _, hn, hnk, hrun, by rw [hv], ?_, rfl, rfl, Frame.refl c⟩
  exact valuesSplice_perm hi.wf.linked.addr_nodup hn

theorem C6_witness :
    Reachable demoFull ∧ indexFind demoFull.m_indexs 3 = some 3 ∧
    ∃ n c2,
      n ∈ demoFull.m_values ∧ n.key = 3 ∧
      Find demoFull 3 = some (some n.data.value, c2) ∧
      c2 = { demoFull with
        m_values := n :: demoFull.m_values.filter (fun m => decide (m.key ≠ 3)) } ∧
      c2.m_values.Perm demoFull.m_values ∧
      c2.m_indexs = demoFull.m_indexs ∧ Size c2 = Size demoFull ∧ Frame demoFull c2 :=
  ⟨demoFull_reachable, by decide,
    C6_find_promotes demoFull demoFull_reachable 3 3 (by decide)⟩

/-- C7: after `Add(key, value, removed)` from a reachable state, whatever the key, the fill
level and `removed`, `Find(key)` returns `value`, and after that `Find` the first cell of the
sequence is the one of `key`. -/
theorem C7_add_then_find (c : CLRUCache K V) (h : Reachable c) (key : K) (value : V)
    (removed : Bool) :
    ∃ out c1 c2 n rest,
      Add c key value removed = some (out, c1) ∧
      Find c1 key = some (some value, c2) ∧
      c2.m_values = n :: rest ∧ n.key = key ∧ n.data.value = value := by
  have hi := h.inv
  rcases hk : indexFind c.m_indexs key with _ | it
  · obtain ⟨out, c1, _, hadd, _, _, _, _, hinv⟩ := Add_absent hi hk value removed
    have hmem : (⟨freshAddr c1.m_values, key, ⟨value, false⟩⟩ : Node K V)
        ∈ (insertFront c1 key value).m_values := by
      simp [insertFront]
    have hf := hinv.wf.linked.find_of_mem hmem
    obtain ⟨n, hn, hnk, _, hrun⟩ := Find_present hinv.wf hf
    have hnn := node_eq_of_key hinv.wf.linked.key_nodup hn hmem hnk
    subst hnn
    exact ⟨out, _, _, _, _, hadd, hrun, rfl, rfl, rfl⟩
  · obtain ⟨hadd, hinv⟩ := Add_present hi hk value removed
    obtain ⟨m, hm, hmk, hma, _⟩ := hi.wf.linked.find_deref hk
    have hmem : ({ m with data := ⟨value, false⟩ } : Node K V)
        ∈ valuesAssign c.m_values it value := by
      unfold valuesAssign
      refine List.mem_map.mpr ⟨m, hm, ?_⟩
      simp [hma]
    have hf : indexFind c.m_indexs key = some m.addr := by
      have := hinv.wf.linked.find_of_mem hmem
      rw [← hmk]; exact this
    obtain ⟨n, hn, hnk, _, hrun⟩ := Find_present hinv.wf hf
    have hnn := node_eq_of_key hinv.wf.linked.key_nodup hn hmem (hnk.trans hmk.symm)
    subst hnn
    exact ⟨none, _, _, _, _, hadd, hrun, rfl, hmk, rfl⟩

theorem C7_witness :
    Reachable demoFull ∧
    ∃ out c1 c2 n rest,
      Add demoFull 6 60 true = some (out, c1) ∧
      Find c1 6 = some (some 60, c2) ∧
      c2.m_values = n :: rest ∧ n.key = 6 ∧ n.data.value = 60 :=
  ⟨demoFull_reachable, C7_add_then_find demoFull demoFull_reachable 6 60 true⟩

/-- C8: in a reachable state with `m_cache_count >= m_limit`, `Add` of an absent key with a
non-null `removed` takes out the last cell of the sequence and nothing else, stores that
cell's value through `removed`, and puts the new key in front: all other cells are kept
unaltered and in order, the counter is what it was and so are the limits and statistics.
The evicted key leaves the index as well: the index cells afterwards are the old ones without
the cell of the evicted key, plus one cell that leads from the new key to the new front
cell, so the index again holds exactly the cells of the sequence. -/
theorem C8_add_with_removed_evicts_last (c : CLRUCache K V) (h : Reachable c)
    (hfull : c.m_cache_count ≥ c.m_limit) (key : K)
    (habs : indexFind c.m_indexs key = none) (value : V) :
    ∃ last c2 it,
      c.m_values.getLast? = some last ∧
      Add c key value true = some (some last.data.value, c2) ∧
      c2.m_values = ⟨it, key, ⟨value, false⟩⟩ :: c.m_values.dropLast ∧
      c2.m_indexs = indexEmplace (indexErase c.m_indexs last.key) key it ∧
      Size c2 = Size c ∧ Frame c c2 ∧
      c2.m_indexs.Perm ((key, it) :: c.m_indexs.filter (fun e => decide (e.1 ≠ last.key))) ∧
      c2.m_indexs.Perm (c2.m_values.map entryOf) ∧
      (c2.m_indexs.map Prod.fst).Perm (key :: c.m_values.dropLast.map Node.key) ∧
      (c2.m_indexs.length : Int) = Size c ∧
      last.key ∉ c2.m_indexs.map Prod.fst ∧
      last.key ∉ c2.m_values.map Node.key ∧
      indexFind c2.m_indexs last.key = none ∧
      indexFind c2.m_indexs key = some it ∧
      it ∉ c.m_values.dropLast.map Node.addr := by
  have hi := h.inv
  obtain ⟨n, hn, hlast, hrun, hvals⟩ :=
    RemoveLast_nonempty hi.wf (hi.nonempty_of_full hfull) true
  have hadd := Add_absent_eq habs (makeRoom_full_single hfull hrun) value
  have hwe := hi.wf.wf_eraseNode hn
  have hk2 : indexFind (eraseNode c n).m_indexs key = none := by
    apply absent_of_sublist hi.wf hwe _ habs
    rw [hvals]; exact List.dropLast_sublist _
  have hw3 := insertFront_wf hwe hk2 value
  have hv3 : (insertFront (eraseNode c n) key value).m_values
      = ⟨freshAddr (eraseNode c n).m_values, key, ⟨value, false⟩⟩ :: c.m_values.dropLast := by
    simp only [insertFront, hvals]
  have hne : n.key ≠ key := by
    intro e
    have := hi.wf.linked.find_of_mem hn
    rw [e, habs] at this
    cases this
  have hgone : n.key ∉ (insertFront (eraseNode c n) key value).m_values.map Node.key := by
    have h0 := hwe.linked.find_none_iff.mp (eraseNode_absent hi.wf hn)
    simp only [insertFront, List.map_cons, List.mem_cons, not_or]
    exact ⟨hne, h0⟩
  have hfind0 := hw3.linked.find_none_iff.mpr hgone
  have hcnt : ((insertFront (eraseNode c n) key value).m_indexs.length : Int) = Size c := by
    rw [hw3.linked.length_eq, ← hw3.count_eq]
    simp only [Size, insertFront, eraseNode]; omega
  have hnew : (⟨freshAddr (eraseNode c n).m_values, key, ⟨value, false⟩⟩ : Node K V)
      ∈ (insertFront (eraseNode c n) key value).m_values := by
    simp [insertFront]
  have hfresh : freshAddr (eraseNode c n).m_values ∉ c.m_values.dropLast.map Node.addr := by
    rw [← hvals]; exact freshAddr_not_mem _
  refine ⟨n, insertFront (eraseNode c n) key value, freshAddr (eraseNode c n).m_values, hlast,
    by simpa using hadd, hv3, rfl, ?_, eraseNode_frame c n, ?_, hw3.linked.index_perm, ?_, hcnt,
    indexFind_none_iff.mp hfind0, hgone, hfind0, hw3.linked.find_of_mem hnew, hfresh⟩
  · simp only [Size, insertFront, eraseNode]; omega
  · exact indexEmplace_perm _ (indexFind_none_iff.mp hk2)
  · have := hw3.linked.index_keys_perm
    rw [hv3] at this
    simpa only [List.map_cons] using this

theorem C8_witness :
    Reachable demoMarked ∧
    (∃ last c2 it,
      demoMarked.m_values.getLast? = some last ∧
      Add demoMarked 6 60 true = some (some last.data.value, c2) ∧
      c2.m_values = ⟨it, 6, ⟨60, false⟩⟩ :: demoMarked.m_values.dropLast ∧
      c2.m_indexs = indexEmplace (indexErase demoMarked.m_indexs last.key) 6 it ∧
      Size c2 = Size demoMarked ∧ Frame demoMarked c2 ∧
      c2.m_indexs.Perm
        ((6, it) :: demoMarked.m_indexs.filter (fun e => decide (e.1 ≠ last.key))) ∧
      c2.m_indexs.Perm (c2.m_values.map entryOf) ∧
      (c2.m_indexs.map Prod.fst).Perm (6 :: demoMarked.m_values.dropLast.map Node.key) ∧
      (c2.m_indexs.length : Int) = Size demoMarked ∧
      last.key ∉ c2.m_indexs.map Prod.fst ∧
      last.key ∉ c2.m_values.map Node.key ∧
      indexFind c2.m_indexs last.key = none ∧
      indexFind c2.m_indexs 6 = some it ∧
      it ∉ demoMarked.m_values.dropLast.map Node.addr) ∧
    Add demoMarked 6 60 true = some (some 10,
      ⟨[⟨6, 6, ⟨60, false⟩⟩, ⟨3, 3, ⟨30, true⟩⟩, ⟨5, 5, ⟨50, false⟩⟩, ⟨4, 4, ⟨40, false⟩⟩,
          ⟨2, 2, ⟨20, false⟩⟩],
        [(2, 2), (3, 3), (4, 4), (5, 5), (6, 6)], 5, 2, 5, 0, 0, 0⟩) :=
  ⟨demoMarked_reachable,
    C8_add_with_removed_evicts_last demoMarked demoMarked_reachable (by decide) 6 (by decide) 60,
    by decide⟩

/-- C9: `Peek` returns what `Find` would return in the same state, a value or the absent
indicator, and leaves every field of the cache as it was. -/
theorem C9_peek_reads_only (c : CLRUCache K V) (h : Reachable c) (key : K) :
    ∃ r, Peek c key = some (r, c) ∧ (Find c key).map Prod.fst = some r := by
  have hi := h.inv
  rcases hk : indexFind c.m_indexs key with _ | it
  · exact ⟨none, Peek_absent hk, by rw [Find_absent hk]; rfl⟩
  · obtain ⟨n, hn, hnk, hna, hp⟩ := Peek_present hi.wf hk
    obtain ⟨m, hm, hmk, _, hf⟩ := Find_present hi.wf hk
    have := node_eq_of_key hi.wf.linked.key_nodup hn hm (hnk.trans hmk.symm)
    subst this
    exact ⟨_, hp, by rw [hf]; rfl⟩

theorem C9_witness :
    Reachable demoFull ∧
    (∃ r, Peek demoFull 9 = some (r, demoFull) ∧ (Find demoFull 9).map Prod.fst = some r) ∧
    Peek demoFull 3 = some (some 30, demoFull) :=
  ⟨demoFull_reachable, C9_peek_reads_only demoFull demoFull_reachable 9, by decide⟩

/-- C10 (amended): `Find` returns the absent indicator exactly when the key is not in the
index.  In that case no field but `m_miss_count` changes, and `m_miss_count` goes up by
exactly 1 provided it is below `INT_MAX` (2147483647). -/
theorem C10_find_miss_below_int_max (c : CLRUCache K V) (h : Reachable c) (key : K) :
    ∃ r c2,
      Find c key = some (r, c2) ∧
      (r = none ↔ key ∉ c.m_indexs.map Prod.fst) ∧
      (r = none →
        c2 = { c with m_miss_count := Miss c2 } ∧
        (Miss c < 2147483647 →
          Miss c2 = Miss c + 1 ∧ c2 = { c with m_miss_count := c.m_miss_count + 1 })) := by
  have hi := h.inv
  rcases hk : indexFind c.m_indexs key with _ | it
  · refine ⟨none, _, Find_absent hk, by simp [indexFind_none_iff.mp hk], fun _ => ⟨rfl, ?_⟩⟩
    intro hlt
    simp only [Miss] at hlt
    have := intIncrement_eq h.miss_range.1 hlt
    exact ⟨this, by rw [this]⟩
  · obtain ⟨n, _, _, _, hrun⟩ := Find_present hi.wf hk
    refine ⟨_, _, hrun, ?_, fun e => Option.noConfusion e⟩
    have : ¬ key ∉ c.m_indexs.map Prod.fst := by
      rw [← indexFind_none_iff, hk]; simp
    exact ⟨fun e => Option.noConfusion e, fun e => absurd e this⟩

theorem C10_witness :
    Reachable demoFull ∧
    (∃ r c2,
      Find demoFull 9 = some (r, c2) ∧
      (r = none ↔ 9 ∉ demoFull.m_indexs.map Prod.fst) ∧
      (r = none →
        c2 = { demoFull with m_miss_count := Miss c2 } ∧
        (Miss demoFull < 2147483647 →
          Miss c2 = Miss demoFull + 1 ∧
          c2 = { demoFull with m_miss_count := demoFull.m_miss_count + 1 }))) ∧
    Miss demoFull < 2147483647 ∧
    Find demoFull 9 = some (none, { demoFull with m_miss_count := 1 }) :=
  ⟨demoFull_reachable, C10_find_miss_below_int_max demoFull demoFull_reachable 9, by decide,
    by decide⟩

theorem C10_counterexample :
    Reachable (missState 2147483647) ∧
    9 ∉ (missState 2147483647).m_indexs.map Prod.fst ∧
    Miss (missState 2147483647) = 2147483647 ∧
    Find (missState 2147483647) 9
      = some (none, { missState 2147483647 with m_miss_count := -2147483648 }) ∧
    ¬ ∃ r c2, Find (missState 2147483647) 9 = some (r, c2) ∧
        (r = none ↔ 9 ∉ (missState 2147483647).m_indexs.map Prod.fst) ∧
        (r = none → Miss c2 = Miss (missState 2147483647) + 1) := by
  have hfind : Find (missState 2147483647) 9
      = some (none, { missState 2147483647 with m_miss_count := -2147483648 }) := by decide
  refine ⟨missState_reachable 2147483647 (le_refl _), by decide, by decide, hfind, ?_⟩
  rintro ⟨r, c2, h1, _, h3⟩
  rw [hfind] at h1
  simp only [Option.some.injEq, Prod.mk.injEq] at h1
  have h4 := h3 h1.1.symm
  rw [← h1.2] at h4
  revert h4
  decide

/-- C11: `Remove` of a present key takes the key's cell out of the sequence and out of the
index, lowers `m_cache_count` by one, stores the removed value through `valueptr` when it is
non-null, and leaves every other cell, its order, the limits and the statistics as they were;
afterwards `Peek` of the key gives the absent indicator. -/
theorem C11_remove_present (c : CLRUCache K V) (h : Reachable c) (key : K) (it : Nat)
    (hk : indexFind c.m_indexs key = some it) (valueptr : Bool) :
    ∃ n c2,
      n ∈ c.m_values ∧ n.key = key ∧
      Remove c key valueptr = some (if valueptr then some n.data.value else none, c2) ∧
      c2 = { c with
        m_indexs := c.m_indexs.filter (fun e => decide (e.1 ≠ key))
        m_values := c.m_values.filter (fun m => decide (m.key ≠ key))
        m_cache_count := c.m_cache_count - 1 } ∧
      key ∉ c2.m_values.map Node.key ∧ key ∉ c2.m_indexs.map Prod.fst ∧
      (c2.m_values.length : Int) = c.m_values.length - 1 ∧
      Size c2 = Size c - 1 ∧ Frame c c2 ∧
      Peek c2 key = some (none, c2) := by
  have hi := h.inv
  rcases Remove_spec hi.wf key valueptr with ⟨habs, _⟩ | ⟨n, hn, hnk, hrun⟩
  · rw [hk] at habs; cases habs
  · have habs := eraseNode_absent hi.wf hn
    have hw := hi.wf.wf_eraseNode hn
    rw [hnk] at habs
    refine ⟨n, eraseNode c n, hn, hnk, hrun, ?_, hw.linked.find_none_iff.mp habs,
      indexFind_none_iff.mp habs, ?_, rfl, eraseNode_frame c n, Peek_absent habs⟩
    · rw [← hnk]; exact eraseNode_eq_filter hi.wf hn
    · have := valuesErase_length hi.wf.linked.addr_nodup hn
      simp only [eraseNode]
      omega

theorem C11_witness :
    Reachable demoFull ∧ indexFind demoFull.m_indexs 3 = some 3 ∧
    (∃ n c2,
      n ∈ demoFull.m_values ∧ n.key = 3 ∧
      Remove demoFull 3 true = some (if true then some n.data.value else none, c2) ∧
      c2 = { demoFull with
        m_indexs := demoFull.m_indexs.filter (fun e => decide (e.1 ≠ 3))
        m_values := demoFull.m_values.filter (fun m => decide (m.key ≠ 3))
        m_cache_count := demoFull.m_cache_count - 1 } ∧
      3 ∉ c2.m_values.map Node.key ∧ 3 ∉ c2.m_indexs.map Prod.fst ∧
      (c2.m_values.length : Int) = demoFull.m_values.length - 1 ∧
      Size c2 = Size demoFull - 1 ∧ Frame demoFull c2 ∧
      Peek c2 3 = some (none, c2)) ∧
    Remove demoFull 3 true = some (some 30,
      ⟨[⟨5, 5, ⟨50, false⟩⟩, ⟨4, 4, ⟨40, false⟩⟩, ⟨2, 2, ⟨20, false⟩⟩, ⟨1, 1, ⟨10, false⟩⟩],
        [(1, 1), (2, 2), (4, 4), (5, 5)], 5, 2, 4, 0, 0, 0⟩) :=
  ⟨demoFull_reachable, by decide,
    C11_remove_present demoFull demoFull_reachable 3 3 (by decide) true, by decide⟩

/-- C12: `Remove` of an absent key returns, leaves the state as it was and stores nothing
through `valueptr`; so a second `Remove` of the same key right after a first one changes
nothing. -/
theorem C12_remove_idempotent (c : CLRUCache K V) (h : Reachable c) (key : K)
    (valueptr valueptr2 : Bool) :
    ∃ out c1,
      Remove c key valueptr = some (out, c1) ∧
      Remove c1 key valueptr2 = some (none, c1) ∧
      (key ∉ c.m_indexs.map Prod.fst → out = none ∧ c1 = c) := by
  have hi := h.inv
  rcases Remove_spec hi.wf key valueptr with ⟨habs, hrun⟩ | ⟨n, hn, hnk, hrun⟩
  · exact ⟨none, c, hrun, Remove_absent habs valueptr2, fun _ => ⟨rfl, rfl⟩⟩
  · have habs := eraseNode_absent hi.wf hn
    rw [hnk] at habs
    refine ⟨_, _, hrun, Remove_absent habs valueptr2, fun hno => ?_⟩
    have := hi.wf.linked.find_of_mem hn
    rw [hnk, indexFind_none_iff.mpr hno] at this
    cases this

theorem C12_witness :
    Reachable demoFull ∧
    (∃ out c1,
      Remove demoFull 3 true = some (out, c1) ∧
      Remove c1 3 true = some (none, c1) ∧
      (3 ∉ demoFull.m_indexs.map Prod.fst → out = none ∧ c1 = demoFull)) ∧
    Remove demoFull 9 true = some (none, demoFull) :=
  ⟨demoFull_reachable, C12_remove_idempotent demoFull demoFull_reachable 3 true true,
    by decide⟩

/-- C13: `MarkDelete` of a present key sets the mark of the key's record and nothing else: the
cell keeps its position and value, `Size()` is the same and `Peek` still returns the value;
`MarkDelete` of an absent key leaves the state as it was.  In both cases the order of the
keys, the counter, the other cells, the index, the limits and the statistics are the same. -/
theorem C13_mark_delete_flag_only (c : CLRUCache K V) (h : Reachable c) (key : K) :
    ∃ c2,
      MarkDelete c key = some c2 ∧
      c2 = { c with
        m_values := List.map
          (fun m => if m.key = key then { m with data := { m.data with _del := true } } else m)
          c.m_values } ∧
      c2.m_values.map Node.key = c.m_values.map Node.key ∧
      c2.m_values.map (fun m => m.data.value) = c.m_values.map (fun m => m.data.value) ∧
      Size c2 = Size c ∧
      (Peek c2 key).map Prod.fst = (Peek c key).map Prod.fst ∧
      (key ∉ c.m_indexs.map Prod.fst → c2 = c) ∧
      (∀ n ∈ c.m_values, n.key = key →
        ({ n with data := { n.data with _del := true } } : Node K V) ∈ c2.m_values ∧
        Peek c2 key = some (some n.data.value, c2)) := by
  have hi := h.inv
  have hmapid : ∀ (hno : key ∉ c.m_values.map Node.key),
      List.map (fun m : Node K V =>
        if m.key = key then { m with data := { m.data with _del := true } } else m)
        c.m_values = c.m_values := by
    intro hno
    conv_rhs => rw [← List.map_id c.m_values]
    apply List.map_congr_left
    intro m hm
    have : ¬ m.key = key := fun e => hno (e ▸ List.mem_map_of_mem Node.key hm)
    simp [this]
  rcases MarkDelete_spec hi.wf key with ⟨habs, hrun⟩ | ⟨n, hn, hnk, hrun⟩
  · have hno := hi.wf.linked.find_none_iff.mp habs
    have hc : c = { c with
        m_values := List.map
          (fun m => if m.key = key then { m with data := { m.data with _del := true } } else m)
          c.m_values } := by
      rw [hmapid hno]
    refine ⟨c, hrun, hc, rfl, rfl, rfl, rfl, fun _ => rfl, fun m hm hmk => ?_⟩
    exact absurd (hmk ▸ List.mem_map_of_mem Node.key hm) hno
  · have hw := hi.wf.wf_mark n.addr
    have hv := valuesMark_eq_map_key hi.wf.linked hn
    rw [hnk] at hv
    have hmem : ({ n with data := { n.data with _del := true } } : Node K V)
        ∈ valuesMark c.m_values n.addr := by
      unfold valuesMark
      exact List.mem_map.mpr ⟨n, hn, by simp⟩
    have hfind : indexFind c.m_indexs key = some n.addr := by
      rw [← hnk]; exact hi.wf.linked.find_of_mem hn
    obtain ⟨m, hm, hmk, _, hpeek⟩ := Peek_present hi.wf hfind
    have hmn := node_eq_of_key hi.wf.linked.key_nodup hm hn (hmk.trans hnk.symm)
    subst hmn
    obtain ⟨m2, hm2, hmk2, _, hpeek2⟩ := Peek_present hw hfind
    have hmn2 := node_eq_of_key hw.linked.key_nodup hm2 hmem (hmk2.trans hnk.symm)
    subst hmn2
    refine ⟨_, hrun, by rw [hv], valuesMark_map_key _ _, ?_, rfl, ?_, fun hno => ?_,
      fun n2 hn2 hnk2 => ?_⟩
    · unfold valuesMark
      rw [List.map_map]
      apply List.map_congr_left
      intro x _
      by_cases hx : x.addr = m.addr <;> simp [hx]
    · rw [hpeek, hpeek2]; rfl
    · rw [indexFind_none_iff.mpr hno] at hfind; cases hfind
    · have := node_eq_of_key hi.wf.linked.key_nodup hn2 hn (hnk2.trans hnk.symm)
      subst this
      exact ⟨hmem, hpeek2⟩

theorem C13_witness :
    Reachable demoFull ∧
    (∃ c2,
      MarkDelete demoFull 3 = some c2 ∧
      c2 = { demoFull with
        m_values := List.map
          (fun m => if m.key = 3 then { m with data := { m.data with _del := true } } else m)
          demoFull.m_values } ∧
      c2.m_values.map Node.key = demoFull.m_values.map Node.key ∧
      c2.m_values.map (fun m => m.data.value) = demoFull.m_values.map (fun m => m.data.value) ∧
      Size c2 = Size demoFull ∧
      (Peek c2 3).map Prod.fst = (Peek demoFull 3).map Prod.fst ∧
      (3 ∉ demoFull.m_indexs.map Prod.fst → c2 = demoFull) ∧
      (∀ n ∈ demoFull.m_values, n.key = 3 →
        ({ n with data := { n.data with _del := true } } : Node Nat Nat) ∈ c2.m_values ∧
        Peek c2 3 = some (some n.data.value, c2))) ∧
    MarkDelete demoFull 9 = some demoFull :=
  ⟨demoFull_reachable, C13_mark_delete_flag_only demoFull demoFull_reachable 3, by decide⟩

theorem demoTwoMarked_reachable : Reachable demoTwoMarked :=
  Reachable.call _ demoTwoMarked (.markDelete 4)
    (Reachable.call demoFull _ (.markDelete 2) demoFull_reachable (by decide : _ = some
      ⟨[⟨5, 5, ⟨50, false⟩⟩, ⟨4, 4, ⟨40, false⟩⟩, ⟨3, 3, ⟨30, false⟩⟩, ⟨2, 2, ⟨20, true⟩⟩,
          ⟨1, 1, ⟨10, false⟩⟩],
        [(1, 1), (2, 2), (3, 3), (4, 4), (5, 5)], 5, 2, 5, 0, 0, 0⟩))
    (by decide)

/-- C14: `CleanNeedDel` removes exactly the marked cells: the sequence afterwards is the old
sequence without its marked cells, the others in their order and unaltered, so no cell is
marked; the index holds the remaining cells; `m_cache_count` has gone down by the number of
marked cells; the limits and the statistics are the same.  The outcome is the same, the order
of the index cells apart, for every order in which the index may be traversed. -/
theorem C14_sweep_removes_marked (c : CLRUCache K V) (h : Reachable c) :
    (∃ c1,
      CleanNeedDel c = some c1 ∧
      c1.m_values = c.m_values.filter (fun n => !n.data._del) ∧
      (∀ n ∈ c1.m_values, n.data._del = false) ∧
      c1.m_indexs.Perm (c1.m_values.map entryOf) ∧
      c1.m_cache_count = c.m_cache_count - c.m_values.countP (fun n => n.data._del) ∧
      Frame c c1) ∧
    ∀ idx : List (K × Nat), idx.Perm c.m_indexs →
      ∃ c1,
        CleanNeedDel { c with m_indexs := idx } = some c1 ∧
        c1.m_values = c.m_values.filter (fun n => !n.data._del) ∧
        c1.m_indexs.Perm (c1.m_values.map entryOf) ∧
        c1.m_cache_count = c.m_cache_count - c.m_values.countP (fun n => n.data._del) ∧
        Frame c c1 := by
  have hi := h.inv
  have key : ∀ d : CLRUCache K V, Wf d →
      ∃ c1, CleanNeedDel d = some c1 ∧
        c1.m_values = d.m_values.filter (fun n => !n.data._del) ∧
        (∀ n ∈ c1.m_values, n.data._del = false) ∧
        c1.m_indexs.Perm (c1.m_values.map entryOf) ∧
        c1.m_cache_count = d.m_cache_count - d.m_values.countP (fun n => n.data._del) ∧
        Frame d c1 := by
    intro d hd
    obtain ⟨c1, h1, h2, h3, h4⟩ := CleanNeedDel_spec hd
    refine ⟨c1, h1, h4, ?_, h2.linked.index_perm, ?_, h3⟩
    · intro n hn
      rw [h4] at hn
      simpa using (List.mem_filter.mp hn).2
    · rw [h2.count_eq, h4, length_filter_live, hd.count_eq]
  refine ⟨key c hi.wf, fun idx hperm => ?_⟩
  have hw : Wf { c with m_indexs := idx } :=
    { linked := ⟨hi.wf.linked.addr_nodup, hi.wf.linked.key_nodup,
        hperm.trans hi.wf.linked.index_perm⟩
      count_eq := hi.wf.count_eq }
  obtain ⟨c1, h1, h2, _, h4, h5, h6⟩ := key _ hw
  exact ⟨c1, h1, h2, h4, h5, h6⟩

theorem C14_witness :
    Reachable demoTwoMarked ∧
    ((∃ c1,
      CleanNeedDel demoTwoMarked = some c1 ∧
      c1.m_values = demoTwoMarked.m_values.filter (fun n => !n.data._del) ∧
      (∀ n ∈ c1.m_values, n.data._del = false) ∧
      c1.m_indexs.Perm (c1.m_values.map entryOf) ∧
      c1.m_cache_count
        = demoTwoMarked.m_cache_count - demoTwoMarked.m_values.countP (fun n => n.data._del) ∧
      Frame demoTwoMarked c1) ∧
    ∀ idx : List (Nat × Nat), idx.Perm demoTwoMarked.m_indexs →
      ∃ c1,
        CleanNeedDel { demoTwoMarked with m_indexs := idx } = some c1 ∧
        c1.m_values = demoTwoMarked.m_values.filter (fun n => !n.data._del) ∧
        c1.m_indexs.Perm (c1.m_values.map entryOf) ∧
        c1.m_cache_count
          = demoTwoMarked.m_cache_count
            - demoTwoMarked.m_values.countP (fun n => n.data._del) ∧
        Frame demoTwoMarked c1) ∧
    CleanNeedDel demoTwoMarked = some
      ⟨[⟨5, 5, ⟨50, false⟩⟩, ⟨3, 3, ⟨30, false⟩⟩, ⟨1, 1, ⟨10, false⟩⟩],
        [(1, 1), (3, 3), (5, 5)], 5, 2, 3, 0, 0, 0⟩ :=
  ⟨demoTwoMarked_reachable, C14_sweep_removes_marked demoTwoMarked demoTwoMarked_reachable,
    by decide⟩

/-- C15: `CleanCapacity` is `CleanNeedDel` followed by `CleanByLRU`: the sequence afterwards
is the old one without its marked cells and, when at least `m_clean_size` cells are then
left, without the last `m_clean_size` of those; when fewer are left the truncation does
nothing and only marked cells have gone. -/
theorem C15_clean_capacity_sweep_then_truncate (c : CLRUCache K V) (h : Reachable c) :
    ∃ c1 c2,
      CleanNeedDel c = some c1 ∧ CleanByLRU c1 = some c2 ∧ CleanCapacity c = some c2 ∧
      c1.m_values = c.m_values.filter (fun n => !n.data._del) ∧
      (c.m_clean_size ≤ c1.m_values.length →
        c2.m_values = c1.m_values.take (c1.m_values.length - c.m_clean_size.toNat) ∧
        (c2.m_values.length : Int) = c1.m_values.length - c.m_clean_size) ∧
      ((c1.m_values.length : Int) < c.m_clean_size → c2 = c1) ∧
      Frame c c2 := by
  have hi := h.inv
  obtain ⟨c1, c2, h1, h2, h3, hw1, _, hf1, hf2, hv1, _, htake, hskip⟩ :=
    CleanCapacity_spec hi.wf (le_of_lt hi.clean_pos)
  have hcl : c1.m_clean_size = c.m_clean_size := hf1.2.1
  have hcnt := hw1.count_eq
  have hpos := hi.clean_pos
  refine ⟨c1, c2, h1, h2, h3, hv1, fun hge => ?_, fun hlt => hskip (by omega), hf2⟩
  have := htake (by omega)
  rw [hcl] at this
  refine ⟨this, ?_⟩
  rw [this, List.length_take]
  omega

theorem C15_witness :
    Reachable demoTwoMarked ∧
    (∃ c1 c2,
      CleanNeedDel demoTwoMarked = some c1 ∧ CleanByLRU c1 = some c2 ∧
      CleanCapacity demoTwoMarked = some c2 ∧
      c1.m_values = demoTwoMarked.m_values.filter (fun n => !n.data._del) ∧
      (demoTwoMarked.m_clean_size ≤ c1.m_values.length →
        c2.m_values
          = c1.m_values.take (c1.m_values.length - demoTwoMarked.m_clean_size.toNat) ∧
        (c2.m_values.length : Int) = c1.m_values.length - demoTwoMarked.m_clean_size) ∧
      ((c1.m_values.length : Int) < demoTwoMarked.m_clean_size → c2 = c1) ∧
      Frame demoTwoMarked c2) ∧
    CleanCapacity demoTwoMarked = some
      ⟨[⟨5, 5, ⟨50, false⟩⟩], [(5, 5)], 5, 2, 1, 0, 0, 0⟩ :=
  ⟨demoTwoMarked_reachable,
    C15_clean_capacity_sweep_then_truncate demoTwoMarked demoTwoMarked_reachable, by decide⟩

/-- C16: after `SetLimit(n)` the limit is the larger of the old limit and `n`, so it stays
when `n` is not above it and becomes `n` otherwise; no other field changes. -/
theorem C16_set_limit_only_grows (c : CLRUCache K V) (n : Int) :
    GetLimit (SetLimit c n) = max (GetLimit c) n ∧
    SetLimit c n = { c with m_limit := max c.m_limit n } ∧
    (n ≤ GetLimit c → SetLimit c n = c) ∧
    (GetLimit c < n → GetLimit (SetLimit c n) = n) := by
  have hmax : (if n ≤ c.m_limit then c.m_limit else n) = max c.m_limit n := by
    split
    · rw [max_eq_left]; assumption
    · rw [max_eq_right]; omega
  refine ⟨by simp only [GetLimit, SetLimit, hmax], by simp only [SetLimit, hmax],
    fun hle => ?_, fun hlt => ?_⟩
  · simp only [GetLimit] at hle
    simp only [SetLimit, if_pos hle]
  · simp only [GetLimit] at hlt
    have : ¬ n ≤ c.m_limit := by omega
    simp only [GetLimit, SetLimit, if_neg this]

theorem C16_witness :
    (3 ≤ GetLimit demoFull → SetLimit demoFull 3 = demoFull) ∧
    (GetLimit demoFull < 8 → GetLimit (SetLimit demoFull 8) = 8) ∧
    GetLimit (SetLimit demoFull 3) = 5 ∧ GetLimit (SetLimit demoFull 8) = 8 :=
  ⟨(C16_set_limit_only_grows demoFull 3).2.2.1, (C16_set_limit_only_grows demoFull 8).2.2.2,
    by decide, by decide⟩

/-- C17: the constructor fails exactly when `limit <= 0`, `clean_size <= 0` or
`clean_size > limit`, whatever `expire_time` is; when it succeeds the cache is empty, all four
counters are 0, `GetLimit()` is `limit` and `GetCleanSize()` is `clean_size`. -/
theorem C17_constructor_checks (limit clean_size expire_time : Int) :
    ((CLRUCache.new limit clean_size expire_time : Option (CLRUCache K V)) = none ↔
      limit ≤ 0 ∨ clean_size ≤ 0 ∨ clean_size > limit) ∧
    ∀ c : CLRUCache K V, CLRUCache.new limit clean_size expire_time = some c →
      c.m_values = [] ∧ c.m_indexs = [] ∧ Size c = 0 ∧ Hit c = 0 ∧ Miss c = 0 ∧
      ExpireCount c = 0 ∧ GetLimit c = limit ∧ GetCleanSize c = clean_size := by
  unfold CLRUCache.new
  by_cases hc : 0 < limit ∧ 0 < clean_size ∧ clean_size ≤ limit
  · rw [if_pos hc]
    refine ⟨⟨fun e => Option.noConfusion e, fun hbad => ?_⟩, fun c e => ?_⟩
    · omega
    · cases e
      exact ⟨rfl, rfl, rfl, rfl, rfl, rfl, rfl, rfl⟩
  · rw [if_neg hc]
    refine ⟨⟨fun _ => ?_, fun _ => rfl⟩, fun c e => Option.noConfusion e⟩
    by_contra hno
    apply hc
    omega

theorem C17_witness :
    (CLRUCache.new 5 2 (-1) = some demoEmpty) ∧
    (demoEmpty.m_values = [] ∧ demoEmpty.m_indexs = [] ∧ Size demoEmpty = 0 ∧
      Hit demoEmpty = 0 ∧ Miss demoEmpty = 0 ∧ ExpireCount demoEmpty = 0 ∧
      GetLimit demoEmpty = 5 ∧ GetCleanSize demoEmpty = 2) ∧
    (CLRUCache.new 2 5 (-1) : Option (CLRUCache Nat Nat)) = none :=
  ⟨by decide, (C17_constructor_checks 5 2 (-1)).2 demoEmpty (by decide), by decide⟩

/-- C18: in every reachable state `Hit()` and `ExpireCount()` are 0, also after `Find` calls
that found their key. -/
theorem C18_hit_and_expire_stay_zero (c : CLRUCache K V) (h : Reachable c) :
    Hit c = 0 ∧ ExpireCount c = 0 ∧
    ∀ (key : K) (it : Nat), indexFind c.m_indexs key = some it →
      ∃ v c2, Find c key = some (some v, c2) ∧ Hit c2 = 0 ∧ ExpireCount c2 = 0 := by
  have hz := h.stats_zero
  refine ⟨hz.1, hz.2, fun key it hk => ?_⟩
  obtain ⟨n, _, _, _, hrun⟩ := Find_present h.inv.wf hk
  exact ⟨_, _, hrun, hz.1, hz.2⟩

theorem C18_witness :
    Reachable demoFull ∧ Hit demoFull = 0 ∧ ExpireCount demoFull = 0 ∧
    ∀ (key : Nat) (it : Nat), indexFind demoFull.m_indexs key = some it →
      ∃ v c2, Find demoFull key = some (some v, c2) ∧ Hit c2 = 0 ∧ ExpireCount c2 = 0 :=
  ⟨demoFull_reachable, C18_hit_and_expire_stay_zero demoFull demoFull_reachable⟩

/-- C20: in a reachable state the removals at the tail made by an eviction never meet an
empty sequence.  With `m_cache_count >= m_limit` the `RemoveLast(removed)` of `Add` finds a
last cell and returns true, and `Add` returns.  With `m_cache_count >= m_clean_size` each of
the `m_clean_size` turns of the loop of `CleanByLRU` finds a last cell and returns true, the
counter never goes below 0, and `CleanByLRU` returns with the counter lowered by exactly
`m_clean_size`. -/
theorem C20_tail_removal_never_on_empty (c : CLRUCache K V) (h : Reachable c) :
    (c.m_cache_count ≥ c.m_limit →
      c.m_values ≠ [] ∧
      (∃ last c1, c.m_values.getLast? = some last ∧
        RemoveLast c true = some (true, some last.data.value, c1)) ∧
      ∀ (key : K) (value : V), ∃ r, Add c key value true = some r) ∧
    (c.m_cache_count ≥ c.m_clean_size →
      (∀ i : Nat, (i : Int) < c.m_clean_size →
        ∃ ci last c1,
          removeLastLoop i c = some ci ∧ ci.m_values ≠ [] ∧
          ci.m_values.getLast? = some last ∧
          RemoveLast ci false = some (true, none, c1) ∧
          removeLastLoop (i + 1) c = some c1 ∧
          c1.m_cache_count = c.m_cache_count - (i + 1 : Nat) ∧
          0 ≤ c1.m_cache_count) ∧
      ∃ c2, CleanByLRU c = some c2 ∧
        c2.m_cache_count = c.m_cache_count - c.m_clean_size ∧
        0 ≤ c2.m_cache_count) := by
  have hi := h.inv
  have hc := hi.wf.count_eq
  have hpos := hi.clean_pos
  refine ⟨fun hfull => ?_, fun hge => ⟨fun i hlt => ?_, ?_⟩⟩
  · have hne := hi.nonempty_of_full hfull
    obtain ⟨last, _, hlast, hrun, _⟩ := RemoveLast_nonempty hi.wf hne true
    refine ⟨hne, ⟨last, _, hlast, by simpa using hrun⟩, fun key value => ?_⟩
    obtain ⟨r, hr, _⟩ := Add_inv hi key value true
    exact ⟨r, hr⟩
  · have htotal : c.m_clean_size.toNat ≤ c.m_values.length := by omega
    obtain ⟨ci, last, h1, h2, h3, h4, h5, h6, h7⟩ :=
      removeLastLoop_turn hi.wf htotal (by omega : i < c.m_clean_size.toNat)
    exact ⟨ci, last, _, h1, h2, h3, h4, h5, h6, h7⟩
  · obtain ⟨c2, h1, hw, _, h4⟩ := CleanByLRU_spec hi.wf (le_of_lt hpos) hge
    have hcnt := hw.count_eq
    rw [h4, List.length_take] at hcnt
    exact ⟨c2, h1, by omega, by omega⟩

theorem C20_witness :
    Reachable demoFull ∧
    ((demoFull.m_cache_count ≥ demoFull.m_limit →
      demoFull.m_values ≠ [] ∧
      (∃ last c1, demoFull.m_values.getLast? = some last ∧
        RemoveLast demoFull true = some (true, some last.data.value, c1)) ∧
      ∀ (key : Nat) (value : Nat), ∃ r, Add demoFull key value true = some r) ∧
    (demoFull.m_cache_count ≥ demoFull.m_clean_size →
      (∀ i : Nat, (i : Int) < demoFull.m_clean_size →
        ∃ ci last c1,
          removeLastLoop i demoFull = some ci ∧ ci.m_values ≠ [] ∧
          ci.m_values.getLast? = some last ∧
          RemoveLast ci false = some (true, none, c1) ∧
          removeLastLoop (i + 1) demoFull = some c1 ∧
          c1.m_cache_count = demoFull.m_cache_count - (i + 1 : Nat) ∧
          0 ≤ c1.m_cache_count) ∧
      ∃ c2, CleanByLRU demoFull = some c2 ∧
        c2.m_cache_count = demoFull.m_cache_count - demoFull.m_clean_size ∧
        0 ≤ c2.m_cache_count)) ∧
    demoFull.m_cache_count ≥ demoFull.m_limit ∧
    demoFull.m_cache_count ≥ demoFull.m_clean_size ∧
    (CleanByLRU demoFull).map (fun s => (s.m_values.map Node.key, s.m_cache_count))
      = some ([5, 4, 3], 3) :=
  ⟨demoFull_reachable, C20_tail_removal_never_on_empty demoFull demoFull_reachable,
    by decide, by decide, by decide⟩

/-- C19: `Rand(container, n)` with `n >= 0`, started on an empty container in a reachable
state that holds `m` cells, leaves exactly `min(m, n)` pairs in the container, each the key
and value of a cell of the cache, and no key twice, whatever the order in which the cells are
drawn. -/
theorem C19_rand_sampling_bound (c : CLRUCache K V) (h : Reachable c)
    (order : List (Node K V) → List (Node K V))
    (horder : (order c.m_values).Perm c.m_values) (count : Int) (hcount : 0 ≤ count) :
    ((Rand c order [] count).length : Int) = min (Size c) count ∧
    ((Rand c order [] count).map Prod.fst).Nodup ∧
    ∀ e ∈ Rand c order [] count, ∃ n ∈ c.m_values, n.key = e.1 ∧ n.data.value = e.2 := by
  have hi := h.inv
  have hsub : ((order c.m_values).take count.toNat).Sublist (order c.m_values) :=
    List.take_sublist _ _
  have hnd : (((order c.m_values).take count.toNat).map Node.key).Nodup :=
    ((horder.map Node.key).nodup_iff.mpr hi.wf.linked.key_nodup).sublist (hsub.map Node.key)
  have hperm := foldl_elemInsert_perm ((order c.m_values).take count.toNat) []
    (by simpa using hnd)
  rw [List.append_nil] at hperm
  have hrand : Rand c order [] count
      = ((order c.m_values).take count.toNat).foldl
          (fun m n => elemInsert m n.key n.data.value) [] := rfl
  rw [hrand]
  refine ⟨?_, ?_, fun e he => ?_⟩
  · rw [hperm.length_eq, List.length_map, List.length_take, horder.length_eq]
    have := hi.wf.count_eq
    simp only [Size]
    omega
  · rw [(hperm.map Prod.fst).nodup_iff, List.map_map]
    exact hnd
  · obtain ⟨n, hn, hne⟩ := List.mem_map.mp (hperm.mem_iff.mp he)
    refine ⟨n, horder.mem_iff.mp (hsub.subset hn), ?_, ?_⟩
    · rw [← hne]
    · rw [← hne]

theorem C19_witness :
    Reachable demoFull ∧
    (((Rand demoFull List.reverse [] 3).length : Int) = min (Size demoFull) 3 ∧
      ((Rand demoFull List.reverse [] 3).map Prod.fst).Nodup ∧
      ∀ e ∈ Rand demoFull List.reverse [] 3,
        ∃ n ∈ demoFull.m_values, n.key = e.1 ∧ n.data.value = e.2) ∧
    Rand demoFull List.reverse [] 3 = [(1, 10), (2, 20), (3, 30)] ∧
    (Rand demoFull List.reverse [] 8).length = 5 :=
  ⟨demoFull_reachable,
    C19_rand_sampling_bound demoFull demoFull_reachable List.reverse
      (List.reverse_perm _) 3 (by decide),
    by decide, by decide⟩

end Claims

end LRU
